import Mathlib

/-!
Verification of the Gorilla time-series compression codec (bit buffer,
encoder, decoder, lazy decoder iterator) against its specification.

The Rust source is embedded shallowly:

* `u64` values are `Nat` (bounds `< 2^64` appear as hypotheses where needed);
  `f64` values are represented by their IEEE-754 bit pattern (`f64::to_bits`),
  which is exactly the granularity at which the codec and the spec operate
  (`to_bits`/`from_bits` are mutually inverse bijections, so nothing is lost).
* `i64` values are `Int`; machine arithmetic that can wrap is made explicit
  with `wrap64` / `toI64` / `toU64` (two's-complement semantics, matching the
  spec's §9 "Signed arithmetic on unsigned timestamps").
* Fallible writes return `BitBuffer × Bool` (`false` = `Err(BufferFull)`,
  with the partially written buffer kept, as in the source); fallible reads
  return `Option`; the decoder returns `DecResult`, whose `panic` constructor
  models a Rust arithmetic-overflow panic (debug semantics) in the one place
  the decoder's `u8` subtraction can underflow.
* The decoder's eager loop and the iterator collection are given explicit
  fuel (one unit per decoded point); the chosen fuels strictly exceed the
  number of remaining bits and each loop iteration consumes at least one bit,
  so the fuel never runs out, and the two fuels are aligned one-to-one
  (`loop_bisim` below exploits this alignment).
-/

/-- Reinterpret a `u64` bit pattern as an `i64` (two's complement). -/
def toI64 (u : Nat) : Int :=
  if u < 2 ^ 63 then (u : Int) else (u : Int) - 2 ^ 64

/-- Reinterpret an `i64` as a `u64` bit pattern (`as u64` in Rust). -/
def toU64 (i : Int) : Nat :=
  (i % 2 ^ 64).toNat

/-- Wrap an integer into the `i64` range `[-2^63, 2^63)` (two's-complement
overflow semantics of `i64` addition/subtraction). -/
def wrap64 (x : Int) : Int :=
  (x + 2 ^ 63) % 2 ^ 64 - 2 ^ 63

/-- The source's single-bit test `(x >> i) & 1 == 1`. -/
def natBit (x i : Nat) : Bool :=
  (x >>> i) &&& 1 == 1

/-- `bitmask` from `encoder.rs`: lowest `n` bits set, handling `n == 64`. -/
def bitmask (n : Nat) : Nat :=
  if 64 ≤ n then 2 ^ 64 - 1 else 2 ^ n - 1

/-- Bit length of `x` (number of significant binary digits), with fuel. -/
def bitLenGo : Nat → Nat → Nat
  | 0, _ => 0
  | fuel + 1, x => if x = 0 then 0 else bitLenGo fuel (x / 2) + 1

/-- `u64::leading_zeros` for `x < 2^64`. -/
def leadingZeros64 (x : Nat) : Nat :=
  64 - bitLenGo 64 x

/-- Count of trailing zero bits, with fuel. -/
def ctzGo : Nat → Nat → Nat
  | 0, _ => 0
  | fuel + 1, x => if x % 2 = 1 then 0 else ctzGo fuel (x / 2) + 1

/-- `u64::trailing_zeros` for `x < 2^64`. -/
def trailingZeros64 (x : Nat) : Nat :=
  if x = 0 then 64 else ctzGo 64 x

/-- `BitBuffer` from `bitbuffer.rs`: backing bytes, number of valid bits in
the last byte (`1..=8`, or `0` iff empty), optional byte limit. -/
structure BitBuffer where
  bytes : List Nat
  bit_count : Nat
  max_bytes : Option Nat
deriving DecidableEq, Repr

/-- `BitBuffer::new()`. -/
def BitBuffer.new : BitBuffer :=
  ⟨[], 0, none⟩

/-- `BitBuffer::with_limit(max_bytes)` (the `Vec` capacity hint is
irrelevant to the semantics). -/
def BitBuffer.with_limit (max_bytes : Nat) : BitBuffer :=
  ⟨[], 0, some max_bytes⟩

/-- `BitBuffer::len_bits()`. -/
def BitBuffer.len_bits (buf : BitBuffer) : Nat :=
  if buf.bytes.isEmpty then 0 else (buf.bytes.length - 1) * 8 + buf.bit_count

/-- OR a mask into the last element of a byte list
(`*self.bytes.last_mut().unwrap() |= mask`; the empty case is unreachable
at every call site, which always follows a push or a nonempty invariant). -/
def orLast : List Nat → Nat → List Nat
  | [], _ => []
  | [b], m => [b ||| m]
  | b :: rest, m => b :: orLast rest m

/-- Lines 125-129 of `write_bit`: set the bit at position `7 - bit_count` of
the tail byte if `bit` is set, then increment `bit_count`. -/
def writeTail (buf : BitBuffer) (bit : Bool) : BitBuffer × Bool :=
  let buf1 := if bit then { buf with bytes := orLast buf.bytes (1 <<< (7 - buf.bit_count)) }
              else buf
  ({ buf1 with bit_count := buf1.bit_count + 1 }, true)

/-- `BitBuffer::write_bit`. Returns the updated buffer and a success flag
(`false` = `Err(BufferFull)`). -/
def BitBuffer.write_bit (buf : BitBuffer) (bit : Bool) : BitBuffer × Bool :=
  if buf.bit_count = 0 ∨ buf.bit_count = 8 then
    match buf.max_bytes with
    | some max =>
      if max ≤ buf.bytes.length then (buf, false)
      else writeTail { buf with bytes := buf.bytes ++ [0], bit_count := 0 } bit
    | none => writeTail { buf with bytes := buf.bytes ++ [0], bit_count := 0 } bit
  else writeTail buf bit

/-- The loop of `write_bits`: `for i in (0..n).rev() { self.write_bit((value >> i) & 1 == 1)?; }`.
On failure the partial write is kept (no rollback), as in the source. -/
def wbGo : BitBuffer → Nat → Nat → BitBuffer × Bool
  | buf, _, 0 => (buf, true)
  | buf, value, i + 1 =>
    let r := buf.write_bit (natBit value i)
    if r.2 then wbGo r.1 value i else (r.1, false)

/-- `BitBuffer::write_bits(value, n)`: writes the low `n` bits of `value`,
most significant first (`n ≤ 64` is a `debug_assert` in the source). -/
def BitBuffer.write_bits (buf : BitBuffer) (value : Nat) (n : Nat) : BitBuffer × Bool :=
  if n = 0 then (buf, true) else wbGo buf value n

/-- `BitReader` from `bitbuffer.rs`: borrowed bytes, total valid bits,
current bit position. -/
structure BitReader where
  bytes : List Nat
  total_bits : Nat
  pos : Nat
deriving DecidableEq, Repr

/-- The bit of a byte stream at bit position `pos`
(`(bytes[pos / 8] >> (7 - pos % 8)) & 1 == 1`, the body of `read_bit`). -/
def streamBit (bytes : List Nat) (pos : Nat) : Bool :=
  natBit (bytes.getD (pos / 8) 0) (7 - pos % 8)

/-- `BitReader::remaining()`. -/
def BitReader.remaining (r : BitReader) : Nat :=
  r.total_bits - r.pos

/-- `BitReader::read_bit()`. -/
def BitReader.read_bit (r : BitReader) : Option (Bool × BitReader) :=
  if r.total_bits ≤ r.pos then none
  else some (streamBit r.bytes r.pos, { r with pos := r.pos + 1 })

/-- The loop of `read_bits`: `value = (value << 1) | (bit as u64)`. -/
def readBitsGo : BitReader → Nat → Nat → Option (Nat × BitReader)
  | r, value, 0 => some (value, r)
  | r, value, n + 1 =>
    match r.read_bit with
    | none => none
    | some (b, r1) => readBitsGo r1 ((value <<< 1) ||| (if b then 1 else 0)) n

/-- `BitReader::read_bits(n)` (big-endian assembly; `none` on a short read). -/
def BitReader.read_bits (r : BitReader) (n : Nat) : Option (Nat × BitReader) :=
  if n = 0 then some (0, r)
  else if r.remaining < n then none
  else readBitsGo r 0 n

/-- `DataPoint` from `encoder.rs`; `value_bits` is `value.to_bits()`. -/
structure DataPoint where
  timestamp : Nat
  value_bits : Nat
deriving DecidableEq, Repr

/-- `Encoder` state from `encoder.rs`. -/
structure Encoder where
  buf : BitBuffer
  count : Nat
  prev_timestamp : Nat
  prev_delta : Int
  prev_value_bits : Nat
  prev_leading_zeros : Nat
  prev_trailing_zeros : Nat
  finished : Bool
deriving DecidableEq, Repr

/-- `Encoder::new()`. -/
def Encoder.new : Encoder :=
  ⟨BitBuffer.new, 0, 0, 0, 0, 64, 64, false⟩

/-- `Encoder::with_limit(max_bytes)`. -/
def Encoder.with_limit (max_bytes : Nat) : Encoder :=
  ⟨BitBuffer.with_limit max_bytes, 0, 0, 0, 0, 64, 64, false⟩

/-- `Encoder::encode_first`. -/
def Encoder.encode_first (e : Encoder) (dp : DataPoint) : Encoder × Bool :=
  let r1 := e.buf.write_bits dp.timestamp 64
  if r1.2 then
    let r2 := r1.1.write_bits dp.value_bits 64
    if r2.2 then
      ({ e with buf := r2.1, prev_timestamp := dp.timestamp,
                prev_value_bits := dp.value_bits }, true)
    else ({ e with buf := r2.1 }, false)
  else ({ e with buf := r1.1 }, false)

/-- `Encoder::encode_delta_of_delta`: the Gorilla variable-length scheme with
inclusive range checks, writing the low bits of `dod as u64`. -/
def Encoder.encode_delta_of_delta (e : Encoder) (dod : Int) : Encoder × Bool :=
  if dod = 0 then
    let r := e.buf.write_bit false
    ({ e with buf := r.1 }, r.2)
  else if -63 ≤ dod ∧ dod ≤ 64 then
    let r1 := e.buf.write_bits 2 2
    if r1.2 then
      let r2 := r1.1.write_bits (toU64 dod &&& 0x7F) 7
      ({ e with buf := r2.1 }, r2.2)
    else ({ e with buf := r1.1 }, false)
  else if -255 ≤ dod ∧ dod ≤ 256 then
    let r1 := e.buf.write_bits 6 3
    if r1.2 then
      let r2 := r1.1.write_bits (toU64 dod &&& 0x1FF) 9
      ({ e with buf := r2.1 }, r2.2)
    else ({ e with buf := r1.1 }, false)
  else if -2047 ≤ dod ∧ dod ≤ 2048 then
    let r1 := e.buf.write_bits 14 4
    if r1.2 then
      let r2 := r1.1.write_bits (toU64 dod &&& 0xFFF) 12
      ({ e with buf := r2.1 }, r2.2)
    else ({ e with buf := r1.1 }, false)
  else
    let r1 := e.buf.write_bits 15 4
    if r1.2 then
      let r2 := r1.1.write_bits (toU64 dod) 64
      ({ e with buf := r2.1 }, r2.2)
    else ({ e with buf := r1.1 }, false)

/-- `Encoder::encode_value`: XOR compression with leading/trailing zero
window. The `u8` subtractions `64 - prev_leading_zeros - prev_trailing_zeros`
and `meaningful_bits - 1` cannot underflow for any state the encoder ever
reaches (the reuse branch requires a nonzero XOR to fit inside the previous
window), so plain truncating `Nat` subtraction is faithful here. -/
def Encoder.encode_value (e : Encoder) (value_bits : Nat) : Encoder × Bool :=
  let bits := value_bits
  let xorv := bits ^^^ e.prev_value_bits
  if xorv = 0 then
    let r := e.buf.write_bit false
    if r.2 then ({ e with buf := r.1, prev_value_bits := bits }, true)
    else ({ e with buf := r.1 }, false)
  else
    let r1 := e.buf.write_bit true
    if r1.2 then
      let leading := leadingZeros64 xorv
      let trailing := trailingZeros64 xorv
      if e.prev_leading_zeros ≤ leading ∧ e.prev_trailing_zeros ≤ trailing then
        let r2 := r1.1.write_bit false
        if r2.2 then
          let meaningful_bits := 64 - e.prev_leading_zeros - e.prev_trailing_zeros
          let meaningful_value := (xorv >>> e.prev_trailing_zeros) &&& bitmask meaningful_bits
          let r3 := r2.1.write_bits meaningful_value meaningful_bits
          if r3.2 then ({ e with buf := r3.1, prev_value_bits := bits }, true)
          else ({ e with buf := r3.1 }, false)
        else ({ e with buf := r2.1 }, false)
      else
        let r2 := r1.1.write_bit true
        if r2.2 then
          let meaningful_bits := 64 - leading - trailing
          let r3 := r2.1.write_bits leading 6
          if r3.2 then
            let r4 := r3.1.write_bits (meaningful_bits - 1) 6
            if r4.2 then
              let meaningful_value := (xorv >>> trailing) &&& bitmask meaningful_bits
              let r5 := r4.1.write_bits meaningful_value meaningful_bits
              if r5.2 then
                ({ e with buf := r5.1, prev_value_bits := bits,
                          prev_leading_zeros := leading,
                          prev_trailing_zeros := trailing }, true)
              else ({ e with buf := r5.1 }, false)
            else ({ e with buf := r4.1 }, false)
          else ({ e with buf := r3.1 }, false)
        else ({ e with buf := r2.1 }, false)
    else ({ e with buf := r1.1 }, false)

/-- `Encoder::encode_second`: the second point's "dod" is the first delta. -/
def Encoder.encode_second (e : Encoder) (dp : DataPoint) : Encoder × Bool :=
  let delta := wrap64 (toI64 dp.timestamp - toI64 e.prev_timestamp)
  let r1 := e.encode_delta_of_delta delta
  if r1.2 then
    let r2 := r1.1.encode_value dp.value_bits
    if r2.2 then
      ({ r2.1 with prev_delta := delta, prev_timestamp := dp.timestamp }, true)
    else (r2.1, false)
  else (r1.1, false)

/-- `Encoder::encode_subsequent`. -/
def Encoder.encode_subsequent (e : Encoder) (dp : DataPoint) : Encoder × Bool :=
  let delta := wrap64 (toI64 dp.timestamp - toI64 e.prev_timestamp)
  let dod := wrap64 (delta - e.prev_delta)
  let r1 := e.encode_delta_of_delta dod
  if r1.2 then
    let r2 := r1.1.encode_value dp.value_bits
    if r2.2 then
      ({ r2.1 with prev_delta := delta, prev_timestamp := dp.timestamp }, true)
    else (r2.1, false)
  else (r1.1, false)

/-- `Encoder::encode`. The source's `assert!(!finished)` is a precondition
(programming error); every theorem below only invokes `encode` on states with
`finished = false`. `count` is incremented only on full success. -/
def Encoder.encode (e : Encoder) (dp : DataPoint) : Encoder × Bool :=
  let r := if e.count = 0 then e.encode_first dp
           else if e.count = 1 then e.encode_second dp
           else e.encode_subsequent dp
  if r.2 then ({ r.1 with count := r.1.count + 1 }, true) else (r.1, false)

/-- `Encoder::finish`: writes the `1111` + 64-ones end-of-stream sentinel;
idempotent. -/
def Encoder.finish (e : Encoder) : Encoder × Bool :=
  if e.finished then (e, true)
  else
    let r1 := e.buf.write_bits 15 4
    if r1.2 then
      let r2 := r1.1.write_bits (2 ^ 64 - 1) 64
      if r2.2 then ({ e with buf := r2.1, finished := true }, true)
      else ({ e with buf := r2.1 }, false)
    else ({ e with buf := r1.1 }, false)

/-- `CompressedBlock` from `encoder.rs`. -/
structure CompressedBlock where
  bytes : List Nat
  total_bits : Nat
  count : Nat
deriving DecidableEq, Repr

/-- `Encoder::into_compressed`. -/
def Encoder.into_compressed (e : Encoder) : CompressedBlock :=
  ⟨e.buf.bytes, e.buf.len_bits, e.count⟩

/-- `DecodeError` from `decoder.rs`. -/
inductive DecodeError where
  | unexpectedEnd
  | empty
deriving DecidableEq, Repr

/-- Outcome of a decoding step: success, a `DecodeError`, or a Rust panic
(arithmetic underflow in a debug build — see `Decoder.decode_value`). -/
inductive DecResult (α : Type) where
  | ok : α → DecResult α
  | err : DecodeError → DecResult α
  | panic : DecResult α
deriving DecidableEq, Repr

/-- `sign_extend` from `decoder.rs`: `((value << shift) as i64) >> shift`
with `shift = 64 - bits`; the left shift is a `u64` shift (wraps mod `2^64`)
and the right shift is an arithmetic shift (floor division). -/
def sign_extend (value : Nat) (bits : Nat) : Int :=
  let shift := 64 - bits
  Int.fdiv (toI64 ((value <<< shift) % 2 ^ 64)) (2 ^ shift)

/-- `DodResult` from `decoder.rs`. -/
inductive DodResult where
  | value : Int → DodResult
  | endOfStream
deriving DecidableEq, Repr

/-- `Decoder::decode_delta_of_delta`. -/
def Decoder.decode_delta_of_delta (r : BitReader) : DecResult (DodResult × BitReader) :=
  match r.read_bit with
  | none => .err .unexpectedEnd
  | some (false, r1) => .ok (.value 0, r1)
  | some (true, r1) =>
    match r1.read_bit with
    | none => .err .unexpectedEnd
    | some (false, r2) =>
      match r2.read_bits 7 with
      | none => .err .unexpectedEnd
      | some (raw, r3) => .ok (.value (sign_extend raw 7), r3)
    | some (true, r2) =>
      match r2.read_bit with
      | none => .err .unexpectedEnd
      | some (false, r3) =>
        match r3.read_bits 9 with
        | none => .err .unexpectedEnd
        | some (raw, r4) => .ok (.value (sign_extend raw 9), r4)
      | some (true, r3) =>
        match r3.read_bit with
        | none => .err .unexpectedEnd
        | some (false, r4) =>
          match r4.read_bits 12 with
          | none => .err .unexpectedEnd
          | some (raw, r5) => .ok (.value (sign_extend raw 12), r5)
        | some (true, r4) =>
          match r4.read_bits 64 with
          | none => .err .unexpectedEnd
          | some (raw, r5) =>
            if raw = 2 ^ 64 - 1 then .ok (.endOfStream, r5)
            else .ok (.value (toI64 raw), r5)

/-- `Decoder::decode_value`. In the new-window branch the source computes
`trailing = 64 - leading - meaningful_bits` in `u8` arithmetic; when
`leading + meaningful_bits > 64` (reachable: both fields are read from the
stream) this underflows, which is a panic in a debug build — modeled by the
explicit check returning `.panic`. The reuse-branch subtraction cannot
underflow: the threaded window always satisfies
`prev_leading_zeros + prev_trailing_zeros ≤ 64`. -/
def Decoder.decode_value (r : BitReader) (prev_value_bits prev_leading_zeros prev_trailing_zeros : Nat) :
    DecResult ((Nat × Nat × Nat) × BitReader) :=
  match r.read_bit with
  | none => .err .unexpectedEnd
  | some (false, r1) => .ok ((prev_value_bits, prev_leading_zeros, prev_trailing_zeros), r1)
  | some (true, r1) =>
    match r1.read_bit with
    | none => .err .unexpectedEnd
    | some (false, r2) =>
      let meaningful_bits := 64 - prev_leading_zeros - prev_trailing_zeros
      match r2.read_bits meaningful_bits with
      | none => .err .unexpectedEnd
      | some (meaningful, r3) =>
        let xorv := (meaningful <<< prev_trailing_zeros) % 2 ^ 64
        .ok ((prev_value_bits ^^^ xorv, prev_leading_zeros, prev_trailing_zeros), r3)
    | some (true, r2) =>
      match r2.read_bits 6 with
      | none => .err .unexpectedEnd
      | some (leading, r3) =>
        match r3.read_bits 6 with
        | none => .err .unexpectedEnd
        | some (mraw, r4) =>
          let meaningful_bits := mraw + 1
          if leading + meaningful_bits ≤ 64 then
            let trailing := 64 - leading - meaningful_bits
            match r4.read_bits meaningful_bits with
            | none => .err .unexpectedEnd
            | some (meaningful, r5) =>
              let xorv := (meaningful <<< trailing) % 2 ^ 64
              .ok ((prev_value_bits ^^^ xorv, leading, trailing), r5)
          else .panic

/-- The `loop` of `Decoder::decode_from_reader`, with fuel (one unit per
iteration; each iteration consumes at least one bit, so any fuel exceeding
the remaining bit count is sufficient). -/
def decodeLoop :
    Nat → BitReader → List DataPoint → Nat → Int → Nat → Nat → Nat →
    DecResult (List DataPoint)
  | 0, _, _, _, _, _, _, _ => .panic
  | fuel + 1, r, points, prev_timestamp, prev_delta, prev_value_bits,
      prev_leading_zeros, prev_trailing_zeros =>
    match Decoder.decode_delta_of_delta r with
    | .err e => .err e
    | .panic => .panic
    | .ok (.endOfStream, _) => .ok points
    | .ok (.value dod, r1) =>
      let prev_delta1 := if points.length = 1 then dod else wrap64 (prev_delta + dod)
      let prev_timestamp1 := toU64 (toI64 prev_timestamp + prev_delta1)
      match Decoder.decode_value r1 prev_value_bits prev_leading_zeros prev_trailing_zeros with
      | .err e => .err e
      | .panic => .panic
      | .ok ((val_bits, leading, trailing), r2) =>
        decodeLoop fuel r2 (points ++ [⟨prev_timestamp1, val_bits⟩])
          prev_timestamp1 prev_delta1 val_bits leading trailing

/-- `Decoder::decode_from_reader`: header (first timestamp, first value),
then the loop. -/
def Decoder.decode_from_reader (r : BitReader) : DecResult (List DataPoint) :=
  match r.read_bits 64 with
  | none => .err .empty
  | some (ts, r1) =>
    match r1.read_bits 64 with
    | none => .err .unexpectedEnd
    | some (val_bits, r2) =>
      decodeLoop (r.total_bits + 1) r2 [⟨ts, val_bits⟩] ts 0 val_bits 0 0

/-- `Decoder::decode`. -/
def Decoder.decode (block : CompressedBlock) : DecResult (List DataPoint) :=
  Decoder.decode_from_reader ⟨block.bytes, block.total_bits, 0⟩

/-- `Decoder::decode_raw`. -/
def Decoder.decode_raw (bytes : List Nat) (total_bits : Nat) : DecResult (List DataPoint) :=
  Decoder.decode_from_reader ⟨bytes, total_bits, 0⟩

/-- `IterState` from `decoder.rs`. -/
inductive IterState where
  | initial
  | secondPoint
  | subsequent
deriving DecidableEq, Repr

/-- `DecoderIter` from `decoder.rs`. -/
structure DecoderIter where
  reader : BitReader
  state : IterState
  prev_timestamp : Nat
  prev_delta : Int
  prev_value_bits : Nat
  prev_leading_zeros : Nat
  prev_trailing_zeros : Nat
  done : Bool
deriving DecidableEq, Repr

/-- `Decoder::iter`. -/
def Decoder.iter (block : CompressedBlock) : DecoderIter :=
  ⟨⟨block.bytes, block.total_bits, 0⟩, .initial, 0, 0, 0, 0, 0, false⟩

/-- `DecoderIter::next` (the `Iterator` impl). Returns the yielded item
(`none` = iterator exhausted; `some .panic` = panicked inside `next`) and the
updated iterator. When `done` is set the stale fields are never read again,
so dropping the partially advanced reader on an error is unobservable. -/
def DecoderIter.next (it : DecoderIter) : Option (DecResult DataPoint) × DecoderIter :=
  if it.done then (none, it)
  else
    match it.state with
    | .initial =>
      match it.reader.read_bits 64 with
      | none => (none, { it with done := true })
      | some (ts, r1) =>
        match r1.read_bits 64 with
        | none => (some (.err .unexpectedEnd), { it with reader := r1, done := true })
        | some (val_bits, r2) =>
          (some (.ok ⟨ts, val_bits⟩),
            { it with reader := r2, prev_timestamp := ts,
                      prev_value_bits := val_bits, state := .secondPoint })
    | .secondPoint | .subsequent =>
      match Decoder.decode_delta_of_delta it.reader with
      | .err e => (some (.err e), { it with done := true })
      | .panic => (some .panic, { it with done := true })
      | .ok (.endOfStream, r1) => (none, { it with reader := r1, done := true })
      | .ok (.value dod, r1) =>
        let prev_delta1 := match it.state with
          | .secondPoint => dod
          | _ => wrap64 (it.prev_delta + dod)
        let state1 := match it.state with
          | .secondPoint => IterState.subsequent
          | _ => it.state
        let prev_timestamp1 := toU64 (toI64 it.prev_timestamp + prev_delta1)
        match Decoder.decode_value r1 it.prev_value_bits it.prev_leading_zeros
            it.prev_trailing_zeros with
        | .err e => (some (.err e), { it with done := true })
        | .panic => (some .panic, { it with done := true })
        | .ok ((val_bits, leading, trailing), r2) =>
          (some (.ok ⟨prev_timestamp1, val_bits⟩),
            { it with reader := r2, state := state1,
                      prev_timestamp := prev_timestamp1, prev_delta := prev_delta1,
                      prev_value_bits := val_bits, prev_leading_zeros := leading,
                      prev_trailing_zeros := trailing })

/-- Collecting the iterator into `Result<Vec<DataPoint>, DecodeError>`
(Rust `collect`): stop at exhaustion or at the first error. Fuel as for
`decodeLoop`. -/
def collectGo : Nat → DecoderIter → DecResult (List DataPoint)
  | 0, _ => .panic
  | fuel + 1, it =>
    match DecoderIter.next it with
    | (none, _) => .ok []
    | (some (.err e), _) => .err e
    | (some .panic, _) => .panic
    | (some (.ok dp), it1) =>
      match collectGo fuel it1 with
      | .ok ps => .ok (dp :: ps)
      | .err e => .err e
      | .panic => .panic

/-- `Decoder::iter(block).collect::<Result<Vec<_>, _>>()`. -/
def Decoder.collectResult (block : CompressedBlock) : DecResult (List DataPoint) :=
  collectGo (block.total_bits + 2) (Decoder.iter block)

/-- A sequence of raw writes against a `BitBuffer` (for stating that *every*
sequence of `write_bit`/`write_bits` calls respects the byte limit). -/
inductive WriteOp where
  | bit : Bool → WriteOp
  | bits : Nat → Nat → WriteOp
deriving DecidableEq, Repr

/-- Apply one write, keeping the buffer whether or not the write succeeded
(as a caller that ignores `BufferFull` would). -/
def applyOp (buf : BitBuffer) : WriteOp → BitBuffer
  | .bit b => (buf.write_bit b).1
  | .bits v n => (buf.write_bits v n).1

/-- Apply a sequence of writes. -/
def applyOps (buf : BitBuffer) (ops : List WriteOp) : BitBuffer :=
  ops.foldl applyOp buf

/-- Well-formedness of a `BitBuffer`: the representation invariant every
buffer reachable through the public constructors and write operations
satisfies — `bit_count = 0` iff empty, `bit_count ≤ 8`, bytes are bytes, and
all bits of the tail byte beyond `bit_count` are still zero. -/
def BitBuffer.wf (buf : BitBuffer) : Prop :=
  (buf.bit_count = 0 ↔ buf.bytes = []) ∧
  buf.bit_count ≤ 8 ∧
  (∀ b ∈ buf.bytes, b < 256) ∧
  (∀ p, p < 8 * buf.bytes.length → buf.len_bits ≤ p → streamBit buf.bytes p = false)

instance (buf : BitBuffer) : Decidable buf.wf := by
  unfold BitBuffer.wf
  infer_instance

/-- Monotone (non-decreasing) timestamps. -/
def TimestampsMonotone : List DataPoint → Prop
  | [] => True
  | [_] => True
  | p :: q :: rest => p.timestamp ≤ q.timestamp ∧ TimestampsMonotone (q :: rest)

/-! ### Bit-level lemmas about the buffer and the reader -/

theorem natBit_eq_testBit (x i : Nat) : natBit x i = x.testBit i := by
  simp only [natBit, Nat.testBit_to_div_mod, Nat.and_one_is_mod, Nat.shiftRight_eq_div_pow]
  by_cases h : x / 2 ^ i % 2 = 1 <;> simp [h]

theorem streamBit_testBit (bytes : List Nat) (p : Nat) :
    streamBit bytes p = (bytes.getD (p / 8) 0).testBit (7 - p % 8) := by
  simp [streamBit, natBit_eq_testBit]

theorem getD_append_left (xs ys : List Nat) (i : Nat) (h : i < xs.length) :
    (xs ++ ys).getD i 0 = xs.getD i 0 := by
  simp [List.getD_eq_getElem?_getD, List.getElem?_append_left h]

theorem getD_concat_self (xs : List Nat) (c : Nat) :
    (xs ++ [c]).getD xs.length 0 = c := by
  simp [List.getD_eq_getElem?_getD]

theorem orLast_concat (xs : List Nat) (t m : Nat) :
    orLast (xs ++ [t]) m = xs ++ [t ||| m] := by
  induction xs with
  | nil => rfl
  | cons a xs ih =>
    cases xs with
    | nil => rfl
    | cons b ys =>
      show a :: orLast ((b :: ys) ++ [t]) m = a :: ((b :: ys) ++ [t ||| m])
      rw [ih]

theorem len_bits_le (buf : BitBuffer) (hwf : buf.wf) :
    buf.len_bits ≤ 8 * buf.bytes.length := by
  obtain ⟨h0, h8, -, -⟩ := hwf
  unfold BitBuffer.len_bits
  split
  · omega
  · rename_i hne
    have : buf.bytes.length ≠ 0 := by
      simpa [List.isEmpty_iff] using hne
    omega

theorem len_bits_nonempty (buf : BitBuffer) (h : buf.bytes ≠ []) :
    buf.len_bits = (buf.bytes.length - 1) * 8 + buf.bit_count := by
  unfold BitBuffer.len_bits
  simp [List.isEmpty_iff, h]

theorem streamBit_append_lt (xs ys : List Nat) (p : Nat) (h : p / 8 < xs.length) :
    streamBit (xs ++ ys) p = streamBit xs p := by
  unfold streamBit
  rw [getD_append_left _ _ _ h]

theorem streamBit_concat (xs : List Nat) (c p : Nat) (h : p / 8 = xs.length) :
    streamBit (xs ++ [c]) p = natBit c (7 - p % 8) := by
  simp [streamBit, h, getD_concat_self]

theorem writeTail_eq (bs : List Nat) (k : Nat) (mx : Option Nat) (b : Bool) :
    writeTail ⟨bs, k, mx⟩ b =
      (⟨if b then orLast bs (1 <<< (7 - k)) else bs, k + 1, mx⟩, true) := by
  cases b <;> rfl

theorem write_bit_ok (buf : BitBuffer) (b : Bool) (hwf : buf.wf)
    (hok : (buf.write_bit b).2 = true) :
    ((buf.write_bit b).1).wf ∧
    (buf.write_bit b).1.max_bytes = buf.max_bytes ∧
    (buf.write_bit b).1.len_bits = buf.len_bits + 1 ∧
    buf.bytes.length ≤ (buf.write_bit b).1.bytes.length ∧
    (buf.write_bit b).1.bytes.length ≤ buf.bytes.length + 1 ∧
    (∀ p, p < buf.len_bits → streamBit (buf.write_bit b).1.bytes p = streamBit buf.bytes p) ∧
    streamBit (buf.write_bit b).1.bytes buf.len_bits = b := by
  obtain ⟨hw0, hw8, hwlt, hwtail⟩ := hwf
  by_cases hk : buf.bit_count = 0 ∨ buf.bit_count = 8
  · -- a new byte is started
    set n := buf.bytes.length with hn
    have hres : buf.write_bit b = (⟨buf.bytes ++ [if b then 128 else 0], 1, buf.max_bytes⟩, true) := by
      have hwt : ∀ mx, writeTail ⟨buf.bytes ++ [0], 0, mx⟩ b =
          (⟨buf.bytes ++ [if b then 128 else 0], 1, mx⟩, true) := by
        intro mx
        rw [writeTail_eq]
        cases b
        · rfl
        · simp [orLast_concat]
      unfold BitBuffer.write_bit
      rw [if_pos hk]
      cases hmx : buf.max_bytes with
      | none => exact hwt none
      | some m =>
        by_cases hm : m ≤ buf.bytes.length
        · exfalso
          unfold BitBuffer.write_bit at hok
          rw [if_pos hk, hmx] at hok
          simp [hm] at hok
        · simpa [hm] using hwt (some m)
    have hLold : buf.len_bits = 8 * n := by
      rcases hk with hk | hk
      · have : buf.bytes = [] := hw0.mp hk
        simp [BitBuffer.len_bits, this, hn]
      · have hne : buf.bytes ≠ [] := by
          intro hnil
          have := hw0.mpr hnil
          omega
        have hlen := len_bits_nonempty buf hne
        have : buf.bytes.length ≠ 0 := by
          simpa [List.length_eq_zero] using hne
        omega
    set c : Nat := if b then 128 else 0 with hc
    have hc256 : c < 256 := by cases b <;> simp [hc]
    have hc7 : c.testBit 7 = b := by
      cases b
      · simp [hc]
      · simp only [hc, if_pos]
        have : (128 : Nat) = 2 ^ 7 := by norm_num
        rw [this, Nat.testBit_two_pow]
        simp
    have hclow : ∀ j, j < 7 → c.testBit j = false := by
      intro j hj
      cases b
      · simp [hc]
      · simp only [hc, if_pos]
        have : (128 : Nat) = 2 ^ 7 := by norm_num
        rw [this, Nat.testBit_two_pow]
        simp
        omega
    rw [hres]
    have hlen2 : (⟨buf.bytes ++ [c], 1, buf.max_bytes⟩ : BitBuffer).len_bits = 8 * n + 1 := by
      rw [len_bits_nonempty _ (by simp)]
      simp only [List.length_append, List.length_cons, List.length_nil]
      omega
    refine ⟨⟨?_, ?_, ?_, ?_⟩, ?_, ?_, ?_, ?_, ?_, ?_⟩
    · simp
    · show (1 : Nat) ≤ 8
      norm_num
    · intro x hx
      rcases List.mem_append.mp hx with hx | hx
      · exact hwlt x hx
      · simp at hx
        omega
    · intro p hp hlp
      show streamBit (buf.bytes ++ [c]) p = false
      replace hlp : (⟨buf.bytes ++ [c], 1, buf.max_bytes⟩ : BitBuffer).len_bits ≤ p := hlp
      rw [hlen2] at hlp
      replace hp : p < 8 * (buf.bytes ++ [c]).length := hp
      simp only [List.length_append, List.length_cons, List.length_nil] at hp
      have hdiv : p / 8 = n := by omega
      rw [streamBit_concat _ _ _ (by simpa [hn] using hdiv), natBit_eq_testBit]
      have hmod : 1 ≤ p % 8 := by omega
      have : 7 - p % 8 < 7 := by omega
      exact hclow _ this
    · rfl
    · show (⟨buf.bytes ++ [c], 1, buf.max_bytes⟩ : BitBuffer).len_bits = buf.len_bits + 1
      rw [hlen2, hLold]
    · simp
    · simp
    · intro p hp
      rw [hLold] at hp
      have : p / 8 < n := by omega
      exact streamBit_append_lt _ _ _ (hn ▸ this)
    · rw [hLold]
      have hdiv : (8 * n) / 8 = n := by omega
      rw [streamBit_concat _ _ _ (by simpa [hn] using hdiv), natBit_eq_testBit]
      have hmod : (8 * n) % 8 = 0 := by omega
      rw [hmod]
      exact hc7
  · -- the bit goes into the tail byte
    push_neg at hk
    obtain ⟨hk0, hk8⟩ := hk
    have hne : buf.bytes ≠ [] := fun hnil => hk0 (hw0.mpr hnil)
    obtain ⟨xs, t, hbytes⟩ : ∃ xs t, buf.bytes = xs ++ [t] := by
      rcases List.eq_nil_or_concat buf.bytes with h | ⟨xs, t, h⟩
      · exact absurd h hne
      · exact ⟨xs, t, by simpa [List.concat_eq_append] using h⟩
    set k := buf.bit_count with hkdef
    have hk17 : 1 ≤ k ∧ k ≤ 7 := by omega
    have hres : buf.write_bit b =
        (⟨if b then xs ++ [t ||| 2 ^ (7 - k)] else xs ++ [t], k + 1, buf.max_bytes⟩, true) := by
      unfold BitBuffer.write_bit
      rw [if_neg (by omega)]
      have : buf = ⟨xs ++ [t], k, buf.max_bytes⟩ := by
        cases buf
        simp_all
      rw [this, writeTail_eq, orLast_concat, Nat.one_shiftLeft]
    set t2 : Nat := if b then t ||| 2 ^ (7 - k) else t with ht2
    have hres2 : buf.write_bit b = (⟨xs ++ [t2], k + 1, buf.max_bytes⟩, true) := by
      rw [hres]
      cases b <;> simp [ht2]
    have htmem : t ∈ buf.bytes := by simp [hbytes]
    have ht256 : t < 256 := hwlt t htmem
    have hpow : (2 : Nat) ^ (7 - k) < 256 := by
      calc (2 : Nat) ^ (7 - k) ≤ 2 ^ 7 := Nat.pow_le_pow_right (by norm_num) (by omega)
        _ < 256 := by norm_num
    have ht2256 : t2 < 256 := by
      cases b
      · simpa [ht2] using ht256
      · simp only [ht2, if_pos]
        have h8 : (256 : Nat) = 2 ^ 8 := by norm_num
        rw [h8]
        exact Nat.or_lt_two_pow (by omega) (by omega)
    have ht2bit : ∀ i, i ≠ 7 - k → t2.testBit i = t.testBit i := by
      intro i hi
      cases b
      · simp [ht2]
      · simp only [ht2, if_pos, Nat.testBit_or, Nat.testBit_two_pow]
        simp [Ne.symm hi]
    have hLold : buf.len_bits = 8 * xs.length + k := by
      rw [len_bits_nonempty _ hne, hbytes]
      simp
      omega
    have hlen : buf.bytes.length = xs.length + 1 := by simp [hbytes]
    rw [hres2]
    have hlen2 : (⟨xs ++ [t2], k + 1, buf.max_bytes⟩ : BitBuffer).len_bits
        = 8 * xs.length + (k + 1) := by
      rw [len_bits_nonempty _ (by simp)]
      simp
      omega
    refine ⟨⟨?_, ?_, ?_, ?_⟩, ?_, ?_, ?_, ?_, ?_, ?_⟩
    · simp
    · show k + 1 ≤ 8
      omega
    · intro x hx
      rcases List.mem_append.mp hx with hx | hx
      · exact hwlt x (by simp [hbytes, hx])
      · simp at hx
        omega
    · intro p hp hlp
      show streamBit (xs ++ [t2]) p = false
      replace hlp : (⟨xs ++ [t2], k + 1, buf.max_bytes⟩ : BitBuffer).len_bits ≤ p := hlp
      rw [hlen2] at hlp
      replace hp : p < 8 * (xs ++ [t2]).length := hp
      simp only [List.length_append, List.length_cons, List.length_nil] at hp
      have hdiv : p / 8 = xs.length := by omega
      rw [streamBit_concat _ _ _ hdiv, natBit_eq_testBit]
      have hmod : k + 1 ≤ p % 8 := by omega
      rw [ht2bit _ (by omega)]
      have hold := hwtail p (by omega) (by omega)
      rw [hbytes, streamBit_concat _ _ _ hdiv, natBit_eq_testBit] at hold
      exact hold
    · rfl
    · show (⟨xs ++ [t2], k + 1, buf.max_bytes⟩ : BitBuffer).len_bits = buf.len_bits + 1
      rw [hlen2, hLold]
      omega
    · simp [hlen]
    · simp [hlen]
    · intro p hp
      rw [hLold] at hp
      rw [hbytes]
      by_cases hdiv : p / 8 < xs.length
      · rw [streamBit_append_lt _ _ _ hdiv, streamBit_append_lt _ _ _ hdiv]
      · have hdiv' : p / 8 = xs.length := by omega
        rw [streamBit_concat _ _ _ hdiv', streamBit_concat _ _ _ hdiv',
            natBit_eq_testBit, natBit_eq_testBit]
        have hmod : p % 8 < k := by omega
        exact ht2bit _ (by omega)
    · rw [hLold]
      have hdiv : (8 * xs.length + k) / 8 = xs.length := by omega
      have hmod : (8 * xs.length + k) % 8 = k := by omega
      rw [streamBit_concat _ _ _ hdiv, natBit_eq_testBit, hmod]
      cases b
      · simp only [ht2, if_neg]
        have hold := hwtail (8 * xs.length + k) (by omega) (by omega)
        rw [hbytes, streamBit_concat _ _ _ hdiv, natBit_eq_testBit, hmod] at hold
        simpa using hold
      · simp only [ht2, if_pos, Nat.testBit_or, Nat.testBit_two_pow]
        simp

theorem orLast_length (l : List Nat) (m : Nat) : (orLast l m).length = l.length := by
  induction l with
  | nil => rfl
  | cons a l ih =>
    cases l with
    | nil => rfl
    | cons b ys =>
      show (a :: orLast (b :: ys) m).length = (a :: b :: ys).length
      simpa using ih

theorem writeTail_snd (buf : BitBuffer) (b : Bool) : (writeTail buf b).2 = true := by
  cases b <;> rfl

theorem writeTail_max (buf : BitBuffer) (b : Bool) :
    (writeTail buf b).1.max_bytes = buf.max_bytes := by
  cases b <;> rfl

theorem writeTail_length (buf : BitBuffer) (b : Bool) :
    (writeTail buf b).1.bytes.length = buf.bytes.length := by
  cases b
  · rfl
  · simp [writeTail, orLast_length]

theorem write_bit_none_ok (buf : BitBuffer) (b : Bool) (h : buf.max_bytes = none) :
    (buf.write_bit b).2 = true := by
  unfold BitBuffer.write_bit
  rw [h]
  split
  · exact writeTail_snd _ _
  · exact writeTail_snd _ _

theorem write_bit_max (buf : BitBuffer) (b : Bool) :
    (buf.write_bit b).1.max_bytes = buf.max_bytes := by
  unfold BitBuffer.write_bit
  split
  · split
    · split
      · rfl
      · exact writeTail_max _ _
    · exact writeTail_max _ _
  · exact writeTail_max _ _

theorem write_bit_len_le (buf : BitBuffer) (b : Bool) (m : Nat)
    (hmx : buf.max_bytes = some m) (hle : buf.bytes.length ≤ m) :
    (buf.write_bit b).1.bytes.length ≤ m := by
  unfold BitBuffer.write_bit
  rw [hmx]
  split
  · show ((if m ≤ buf.bytes.length then (buf, false)
        else writeTail ⟨buf.bytes ++ [0], 0, some m⟩ b)).1.bytes.length ≤ m
    by_cases hm : m ≤ buf.bytes.length
    · rw [if_pos hm]
      exact hle
    · rw [if_neg hm]
      rw [writeTail_length]
      simp
      omega
  · rw [writeTail_length]
    exact hle

theorem write_bit_fail (buf : BitBuffer) (b : Bool)
    (h : (buf.write_bit b).2 = false) :
    (buf.write_bit b).1 = buf ∧ (buf.bit_count = 0 ∨ buf.bit_count = 8) ∧
      ∃ m, buf.max_bytes = some m ∧ m ≤ buf.bytes.length := by
  by_cases hk : buf.bit_count = 0 ∨ buf.bit_count = 8
  · cases hmx : buf.max_bytes with
    | none =>
      exfalso
      unfold BitBuffer.write_bit at h
      rw [if_pos hk, hmx, writeTail_snd] at h
      exact absurd h (by simp)
    | some m =>
      by_cases hm : m ≤ buf.bytes.length
      · have h1 : buf.write_bit b = (buf, false) := by
          unfold BitBuffer.write_bit
          rw [if_pos hk, hmx]
          show (if m ≤ buf.bytes.length then (buf, false)
              else writeTail ⟨buf.bytes ++ [0], 0, some m⟩ b) = (buf, false)
          rw [if_pos hm]
        rw [h1]
        exact ⟨rfl, hk, m, rfl, hm⟩
      · exfalso
        unfold BitBuffer.write_bit at h
        rw [if_pos hk, hmx] at h
        replace h : (if m ≤ buf.bytes.length then (buf, false)
            else writeTail ⟨buf.bytes ++ [0], 0, some m⟩ b).2 = false := h
        rw [if_neg hm, writeTail_snd] at h
        exact absurd h (by simp)
  · exfalso
    unfold BitBuffer.write_bit at h
    rw [if_neg hk, writeTail_snd] at h
    exact absurd h (by simp)

theorem write_bit_succ_iff (buf : BitBuffer) (b : Bool) (m : Nat) (hwf : buf.wf)
    (hmx : buf.max_bytes = some m) (hle : buf.bytes.length ≤ m) :
    (buf.write_bit b).2 = true ↔ buf.len_bits < 8 * m := by
  obtain ⟨hw0, hw8, -, -⟩ := hwf
  by_cases hk : buf.bit_count = 0 ∨ buf.bit_count = 8
  · have hLold : buf.len_bits = 8 * buf.bytes.length := by
      rcases hk with hk | hk
      · have : buf.bytes = [] := hw0.mp hk
        simp [BitBuffer.len_bits, this]
      · have hne : buf.bytes ≠ [] := by
          intro hnil
          have := hw0.mpr hnil
          omega
        have hlen := len_bits_nonempty buf hne
        have : buf.bytes.length ≠ 0 := by
          simpa [List.length_eq_zero] using hne
        omega
    unfold BitBuffer.write_bit
    rw [if_pos hk, hmx]
    show ((if m ≤ buf.bytes.length then (buf, false)
        else writeTail ⟨buf.bytes ++ [0], 0, some m⟩ b)).2 = true ↔ buf.len_bits < 8 * m
    by_cases hm : m ≤ buf.bytes.length
    · rw [if_pos hm]
      simp
      omega
    · rw [if_neg hm, writeTail_snd]
      simp
      omega
  · have hne : buf.bytes ≠ [] := by
      intro hnil
      have := hw0.mpr hnil
      simp [hnil] at hk
      omega
    have hlen := len_bits_nonempty buf hne
    have hlenpos : buf.bytes.length ≠ 0 := by
      simpa [List.length_eq_zero] using hne
    unfold BitBuffer.write_bit
    rw [if_neg hk, writeTail_snd]
    push_neg at hk
    simp
    omega

theorem wbGo_step (buf : BitBuffer) (v n : Nat) :
    wbGo buf v (n + 1) =
      if (buf.write_bit (natBit v n)).2 = true then wbGo (buf.write_bit (natBit v n)).1 v n
      else ((buf.write_bit (natBit v n)).1, false) := rfl

theorem wbGo_ok (n : Nat) :
    ∀ (buf : BitBuffer) (v : Nat), buf.wf → (wbGo buf v n).2 = true →
    (wbGo buf v n).1.wf ∧
    (wbGo buf v n).1.max_bytes = buf.max_bytes ∧
    (wbGo buf v n).1.len_bits = buf.len_bits + n ∧
    (∀ p, p < buf.len_bits → streamBit (wbGo buf v n).1.bytes p = streamBit buf.bytes p) ∧
    (∀ j, j < n → streamBit (wbGo buf v n).1.bytes (buf.len_bits + j) = v.testBit (n - 1 - j)) := by
  induction n with
  | zero =>
    intro buf v hwf _
    exact ⟨hwf, rfl, by simp [wbGo], fun p _ => rfl, fun j hj => absurd hj (by omega)⟩
  | succ n ih =>
    intro buf v hwf hok
    by_cases hr : (buf.write_bit (natBit v n)).2 = true
    · rw [wbGo_step, if_pos hr] at hok ⊢
      obtain ⟨hwf1, hmax1, hlen1, -, -, hpres1, hbit1⟩ :=
        write_bit_ok buf (natBit v n) hwf hr
      obtain ⟨hwf2, hmax2, hlen2, hpres2, hbit2⟩ :=
        ih (buf.write_bit (natBit v n)).1 v hwf1 hok
      refine ⟨hwf2, by rw [hmax2, hmax1], by rw [hlen2, hlen1]; omega, ?_, ?_⟩
      · intro p hp
        rw [hpres2 p (by omega), hpres1 p hp]
      · intro j hj
        cases j with
        | zero =>
          have h0 : buf.len_bits < (buf.write_bit (natBit v n)).1.len_bits := by omega
          rw [Nat.add_zero, hpres2 _ h0, hbit1, natBit_eq_testBit]
          congr 1
        | succ k =>
          have hk : k < n := by omega
          have := hbit2 k hk
          rw [hlen1] at this
          have harr : buf.len_bits + (k + 1) = buf.len_bits + 1 + k := by omega
          rw [harr, this]
          congr 1
          omega
    · rw [wbGo_step, if_neg hr] at hok
      exact absurd hok (by simp)

theorem wbGo_max (n : Nat) :
    ∀ (buf : BitBuffer) (v : Nat), (wbGo buf v n).1.max_bytes = buf.max_bytes := by
  induction n with
  | zero => intro buf v; rfl
  | succ n ih =>
    intro buf v
    rw [wbGo_step]
    by_cases hr : (buf.write_bit (natBit v n)).2 = true
    · rw [if_pos hr, ih, write_bit_max]
    · rw [if_neg hr]
      exact write_bit_max _ _

theorem wbGo_none_ok (n : Nat) :
    ∀ (buf : BitBuffer) (v : Nat), buf.max_bytes = none → (wbGo buf v n).2 = true := by
  induction n with
  | zero => intro buf v _; rfl
  | succ n ih =>
    intro buf v hmx
    have hr : (buf.write_bit (natBit v n)).2 = true := write_bit_none_ok _ _ hmx
    rw [wbGo_step, if_pos hr]
    exact ih _ v (by rw [write_bit_max]; exact hmx)

theorem wbGo_len_le (n : Nat) :
    ∀ (buf : BitBuffer) (v m : Nat), buf.max_bytes = some m → buf.bytes.length ≤ m →
      (wbGo buf v n).1.bytes.length ≤ m := by
  induction n with
  | zero => intro buf v m _ hle; exact hle
  | succ n ih =>
    intro buf v m hmx hle
    rw [wbGo_step]
    by_cases hr : (buf.write_bit (natBit v n)).2 = true
    · rw [if_pos hr]
      exact ih _ v m (by rw [write_bit_max]; exact hmx) (write_bit_len_le _ _ m hmx hle)
    · rw [if_neg hr]
      exact write_bit_len_le _ _ m hmx hle

theorem wbGo_succ_iff (n : Nat) :
    ∀ (buf : BitBuffer) (v m : Nat), buf.wf → buf.max_bytes = some m →
      buf.bytes.length ≤ m →
      ((wbGo buf v n).2 = true ↔ buf.len_bits + n ≤ 8 * m) := by
  induction n with
  | zero =>
    intro buf v m hwf hmx hle
    have := len_bits_le buf hwf
    constructor
    · intro _
      omega
    · intro _
      rfl
  | succ n ih =>
    intro buf v m hwf hmx hle
    rw [wbGo_step]
    by_cases hLm : buf.len_bits < 8 * m
    · have hr : (buf.write_bit (natBit v n)).2 = true :=
        (write_bit_succ_iff buf _ m hwf hmx hle).mpr hLm
      rw [if_pos hr]
      obtain ⟨hwf1, hmax1, hlen1, -, -, -, -⟩ := write_bit_ok buf (natBit v n) hwf hr
      have := ih (buf.write_bit (natBit v n)).1 v m hwf1 (by rw [hmax1]; exact hmx)
        (write_bit_len_le _ _ m hmx hle)
      rw [this, hlen1]
      omega
    · have hr : ¬ (buf.write_bit (natBit v n)).2 = true := by
        rw [write_bit_succ_iff buf _ m hwf hmx hle]
        omega
      rw [if_neg hr]
      simp
      omega

theorem wbGo_fail_state (n : Nat) :
    ∀ (buf : BitBuffer) (v m : Nat), buf.wf → buf.max_bytes = some m →
      buf.bytes.length ≤ m → (wbGo buf v n).2 = false →
      (wbGo buf v n).1.wf ∧
      (wbGo buf v n).1.max_bytes = some m ∧
      (wbGo buf v n).1.len_bits = 8 * m ∧
      (wbGo buf v n).1.bytes.length = m ∧
      (∀ p, p < buf.len_bits → streamBit (wbGo buf v n).1.bytes p = streamBit buf.bytes p) ∧
      (∀ j, j < 8 * m - buf.len_bits →
        streamBit (wbGo buf v n).1.bytes (buf.len_bits + j) = v.testBit (n - 1 - j)) := by
  induction n with
  | zero =>
    intro buf v m hwf hmx hle hfail
    exact absurd hfail (by simp [wbGo])
  | succ n ih =>
    intro buf v m hwf hmx hle hfail
    by_cases hr : (buf.write_bit (natBit v n)).2 = true
    · rw [wbGo_step, if_pos hr] at hfail ⊢
      obtain ⟨hwf1, hmax1, hlen1, -, -, hpres1, hbit1⟩ :=
        write_bit_ok buf (natBit v n) hwf hr
      have hLm : buf.len_bits < 8 * m :=
        (write_bit_succ_iff buf _ m hwf hmx hle).mp hr
      obtain ⟨hwf2, hmax2, hlen2, hblen2, hpres2, hbit2⟩ :=
        ih (buf.write_bit (natBit v n)).1 v m hwf1 (by rw [hmax1]; exact hmx)
          (write_bit_len_le _ _ m hmx hle) hfail
      refine ⟨hwf2, hmax2, hlen2, hblen2, ?_, ?_⟩
      · intro p hp
        rw [hpres2 p (by omega), hpres1 p hp]
      · intro j hj
        cases j with
        | zero =>
          rw [Nat.add_zero, hpres2 _ (by omega), hbit1, natBit_eq_testBit]
          congr 1
        | succ k =>
          have hk : k < 8 * m - (buf.write_bit (natBit v n)).1.len_bits := by omega
          have := hbit2 k hk
          rw [hlen1] at this
          have harr : buf.len_bits + (k + 1) = buf.len_bits + 1 + k := by omega
          rw [harr, this]
          congr 1
          omega
    · rw [wbGo_step, if_neg hr] at hfail ⊢
      obtain ⟨heq, hk, m2, hmx2, hm2⟩ := write_bit_fail buf _ (by simpa using hr)
      have hm2m : m2 = m := by
        rw [hmx] at hmx2
        exact (Option.some_injective _ hmx2).symm
      rw [hm2m] at hm2
      have hblen : buf.bytes.length = m := by omega
      obtain ⟨hw0, hw8, hw3, hw4⟩ := hwf
      have hL8 : buf.len_bits = 8 * m := by
        rcases hk with hk0 | hk8
        · have : buf.bytes = [] := hw0.mp hk0
          have : buf.bytes.length = 0 := by rw [this]; rfl
          have hm0 : m = 0 := by omega
          have : buf.bytes = [] := hw0.mp hk0
          simp [BitBuffer.len_bits, this, hm0]
        · have hne : buf.bytes ≠ [] := by
            intro hnil
            have := hw0.mpr hnil
            omega
          have hlen := len_bits_nonempty buf hne
          have : buf.bytes.length ≠ 0 := by
            simpa [List.length_eq_zero] using hne
          omega
      rw [heq]
      exact ⟨⟨hw0, hw8, hw3, hw4⟩, hmx, hL8, hblen,
        fun p _ => rfl, fun j hj => absurd hj (by omega)⟩

theorem write_bits_ok (buf : BitBuffer) (v n : Nat) (hwf : buf.wf)
    (hok : (buf.write_bits v n).2 = true) :
    (buf.write_bits v n).1.wf ∧
    (buf.write_bits v n).1.max_bytes = buf.max_bytes ∧
    (buf.write_bits v n).1.len_bits = buf.len_bits + n ∧
    (∀ p, p < buf.len_bits → streamBit (buf.write_bits v n).1.bytes p = streamBit buf.bytes p) ∧
    (∀ j, j < n → streamBit (buf.write_bits v n).1.bytes (buf.len_bits + j) = v.testBit (n - 1 - j)) := by
  unfold BitBuffer.write_bits at hok ⊢
  by_cases hn : n = 0
  · rw [if_pos hn]
    subst hn
    exact ⟨hwf, rfl, by simp, fun p _ => rfl, fun j hj => absurd hj (by omega)⟩
  · rw [if_neg hn] at hok ⊢
    exact wbGo_ok n buf v hwf hok

theorem write_bits_max (buf : BitBuffer) (v n : Nat) :
    (buf.write_bits v n).1.max_bytes = buf.max_bytes := by
  unfold BitBuffer.write_bits
  split
  · rfl
  · exact wbGo_max n buf v

theorem write_bits_none_ok (buf : BitBuffer) (v n : Nat) (hmx : buf.max_bytes = none) :
    (buf.write_bits v n).2 = true := by
  unfold BitBuffer.write_bits
  split
  · rfl
  · exact wbGo_none_ok n buf v hmx

theorem write_bits_len_le (buf : BitBuffer) (v n m : Nat)
    (hmx : buf.max_bytes = some m) (hle : buf.bytes.length ≤ m) :
    (buf.write_bits v n).1.bytes.length ≤ m := by
  unfold BitBuffer.write_bits
  split
  · exact hle
  · exact wbGo_len_le n buf v m hmx hle

theorem write_bits_succ_iff (buf : BitBuffer) (v n m : Nat) (hwf : buf.wf)
    (hmx : buf.max_bytes = some m) (hle : buf.bytes.length ≤ m) :
    ((buf.write_bits v n).2 = true ↔ buf.len_bits + n ≤ 8 * m) := by
  unfold BitBuffer.write_bits
  split
  · rename_i hn
    subst hn
    have := len_bits_le buf hwf
    constructor
    · intro _
      omega
    · intro _
      rfl
  · exact wbGo_succ_iff n buf v m hwf hmx hle

theorem write_bits_fail_state (buf : BitBuffer) (v n m : Nat) (hwf : buf.wf)
    (hmx : buf.max_bytes = some m) (hle : buf.bytes.length ≤ m)
    (hfail : (buf.write_bits v n).2 = false) :
    (buf.write_bits v n).1.wf ∧
    (buf.write_bits v n).1.max_bytes = some m ∧
    (buf.write_bits v n).1.len_bits = 8 * m ∧
    (buf.write_bits v n).1.bytes.length = m ∧
    (∀ p, p < buf.len_bits → streamBit (buf.write_bits v n).1.bytes p = streamBit buf.bytes p) ∧
    (∀ j, j < 8 * m - buf.len_bits →
      streamBit (buf.write_bits v n).1.bytes (buf.len_bits + j) = v.testBit (n - 1 - j)) := by
  unfold BitBuffer.write_bits at hfail ⊢
  split at hfail
  · exact absurd hfail (by simp)
  · rw [if_neg (by assumption)]
    exact wbGo_fail_state n buf v m hwf hmx hle hfail

theorem two_mul_or_bit (a c : Nat) (hc : c < 2) : (a <<< 1) ||| c = 2 * a + c := by
  have h2 : a <<< 1 = 2 * a := by
    rw [Nat.shiftLeft_eq]
    ring
  rw [h2]
  interval_cases c
  · simp
  · apply Nat.eq_of_testBit_eq
    intro i
    cases i with
    | zero =>
      simp [Nat.testBit_or, Nat.testBit_to_div_mod, Nat.mul_add_mod, Nat.mul_mod_right]
    | succ k =>
      rw [Nat.testBit_or, Nat.testBit_add_one, Nat.testBit_add_one, Nat.testBit_add_one]
      have e1 : 2 * a / 2 = a := by omega
      have e2 : (2 * a + 1) / 2 = a := by omega
      have e3 : 1 / 2 = 0 := by omega
      rw [e1, e2, e3]
      simp

theorem readBitsGo_step (r : BitReader) (acc n : Nat) :
    readBitsGo r acc (n + 1) =
      match r.read_bit with
      | none => none
      | some (b, r1) => readBitsGo r1 ((acc <<< 1) ||| (if b then 1 else 0)) n := rfl

theorem readBitsGo_spec (n : Nat) :
    ∀ (r : BitReader) (acc v : Nat),
      (∀ j, j < n → streamBit r.bytes (r.pos + j) = v.testBit (n - 1 - j)) →
      r.pos + n ≤ r.total_bits →
      readBitsGo r acc n = some (acc * 2 ^ n + v % 2 ^ n, ⟨r.bytes, r.total_bits, r.pos + n⟩) := by
  induction n with
  | zero =>
    intro r acc v _ _
    simp [readBitsGo, Nat.mod_one]
  | succ n ih =>
    intro r acc v hbits hle
    have hrb : r.read_bit = some (streamBit r.bytes r.pos, ⟨r.bytes, r.total_bits, r.pos + 1⟩) := by
      unfold BitReader.read_bit
      rw [if_neg (by omega)]
    rw [readBitsGo_step, hrb]
    have hb : streamBit r.bytes r.pos = v.testBit n := by
      have := hbits 0 (by omega)
      simpa using this
    rw [hb]
    show readBitsGo ⟨r.bytes, r.total_bits, r.pos + 1⟩
        ((acc <<< 1) ||| (if v.testBit n then 1 else 0)) n = _
    have hacc : (acc <<< 1) ||| (if v.testBit n then 1 else 0) =
        2 * acc + (if v.testBit n then 1 else 0) :=
      two_mul_or_bit acc _ (by split <;> omega)
    rw [hacc]
    have hbits1 : ∀ j, j < n →
        streamBit (⟨r.bytes, r.total_bits, r.pos + 1⟩ : BitReader).bytes
          ((⟨r.bytes, r.total_bits, r.pos + 1⟩ : BitReader).pos + j) = v.testBit (n - 1 - j) := by
      intro j hj
      have := hbits (j + 1) (by omega)
      have harr : r.pos + (j + 1) = r.pos + 1 + j := by omega
      rw [harr] at this
      show streamBit r.bytes (r.pos + 1 + j) = v.testBit (n - 1 - j)
      rw [this]
      congr 1
      omega
    have hle1 : (⟨r.bytes, r.total_bits, r.pos + 1⟩ : BitReader).pos + n ≤
        (⟨r.bytes, r.total_bits, r.pos + 1⟩ : BitReader).total_bits := by
      show r.pos + 1 + n ≤ r.total_bits
      omega
    rw [ih ⟨r.bytes, r.total_bits, r.pos + 1⟩ (2 * acc + (if v.testBit n then 1 else 0)) v hbits1 hle1]
    have hmod : v % 2 ^ (n + 1) = (if v.testBit n then 1 else 0) * 2 ^ n + v % 2 ^ n := by
      have h1 : (2 : Nat) ^ (n + 1) = 2 ^ n * 2 := by ring
      rw [h1, Nat.mod_mul]
      have ht : v / 2 ^ n % 2 = (if v.testBit n then 1 else 0) := by
        rcases Nat.mod_two_eq_zero_or_one (v / 2 ^ n) with h | h <;>
          simp [Nat.testBit_to_div_mod, h]
      rw [ht]
      ring
    have hval : (2 * acc + (if v.testBit n then 1 else 0)) * 2 ^ n + v % 2 ^ n =
        acc * 2 ^ (n + 1) + v % 2 ^ (n + 1) := by
      rw [hmod]
      ring
    rw [hval]
    have hpos : r.pos + 1 + n = r.pos + (n + 1) := by omega
    rw [hpos]

theorem read_bits_spec (r : BitReader) (v n : Nat)
    (hbits : ∀ j, j < n → streamBit r.bytes (r.pos + j) = v.testBit (n - 1 - j))
    (hle : r.pos + n ≤ r.total_bits) :
    r.read_bits n = some (v % 2 ^ n, ⟨r.bytes, r.total_bits, r.pos + n⟩) := by
  unfold BitReader.read_bits
  by_cases hn : n = 0
  · subst hn
    simp [Nat.mod_one]
  · rw [if_neg hn]
    have hnotlt : ¬ r.remaining < n := by
      unfold BitReader.remaining
      omega
    rw [if_neg hnotlt]
    have := readBitsGo_spec n r 0 v hbits hle
    simpa using this

theorem read_bit_some (r : BitReader) (b : Bool) (r1 : BitReader)
    (h : r.read_bit = some (b, r1)) :
    r1.bytes = r.bytes ∧ r1.total_bits = r.total_bits ∧ r1.pos = r.pos + 1 ∧
      r.pos < r.total_bits := by
  unfold BitReader.read_bit at h
  split at h
  · exact absurd h (by simp)
  · rename_i hlt
    rw [Option.some.injEq, Prod.mk.injEq] at h
    obtain ⟨-, h2⟩ := h
    rw [← h2]
    exact ⟨rfl, rfl, rfl, by omega⟩

theorem readBitsGo_some (n : Nat) :
    ∀ (r : BitReader) (acc v : Nat) (r1 : BitReader),
      readBitsGo r acc n = some (v, r1) →
      r1.bytes = r.bytes ∧ r1.total_bits = r.total_bits ∧ r1.pos = r.pos + n := by
  induction n with
  | zero =>
    intro r acc v r1 h
    simp [readBitsGo] at h
    obtain ⟨-, h2⟩ := h
    rw [← h2]
    exact ⟨rfl, rfl, rfl⟩
  | succ n ih =>
    intro r acc v r1 h
    rw [readBitsGo_step] at h
    cases hrb : r.read_bit with
    | none =>
      rw [hrb] at h
      exact absurd h (by simp)
    | some br =>
      obtain ⟨b, rb⟩ := br
      rw [hrb] at h
      obtain ⟨hbytes, htotal, hpos, -⟩ := read_bit_some r b rb hrb
      obtain ⟨h1, h2, h3⟩ := ih rb _ v r1 h
      exact ⟨by rw [h1, hbytes], by rw [h2, htotal], by omega⟩

theorem read_bits_some (r : BitReader) (n v : Nat) (r1 : BitReader)
    (h : r.read_bits n = some (v, r1)) :
    r1.bytes = r.bytes ∧ r1.total_bits = r.total_bits ∧ r1.pos = r.pos + n ∧
      (0 < n → r.pos + n ≤ r.total_bits) := by
  unfold BitReader.read_bits at h
  split at h
  · rename_i hn
    subst hn
    simp at h
    obtain ⟨-, h2⟩ := h
    rw [← h2]
    exact ⟨rfl, rfl, rfl, by omega⟩
  · split at h
    · exact absurd h (by simp)
    · rename_i hn hrem
      unfold BitReader.remaining at hrem
      obtain ⟨h1, h2, h3⟩ := readBitsGo_some n r 0 v r1 h
      exact ⟨h1, h2, h3, by omega⟩

/-! ### Byte-limit invariants lifted to sequences of writes and to the encoder -/

theorem applyOps_le (ops : List WriteOp) :
    ∀ (buf : BitBuffer) (m : Nat), buf.max_bytes = some m → buf.bytes.length ≤ m →
      (applyOps buf ops).bytes.length ≤ m ∧ (applyOps buf ops).max_bytes = some m := by
  induction ops with
  | nil =>
    intro buf m hmx hle
    exact ⟨hle, hmx⟩
  | cons op ops ih =>
    intro buf m hmx hle
    show (applyOps (applyOp buf op) ops).bytes.length ≤ m ∧ _
    apply ih
    · cases op with
      | bit b => exact (write_bit_max _ _).trans hmx
      | bits v n => exact (write_bits_max _ _ _).trans hmx
    · cases op with
      | bit b => exact write_bit_len_le _ _ m hmx hle
      | bits v n => exact write_bits_len_le _ _ _ m hmx hle

set_option maxHeartbeats 1600000 in
theorem encode_value_inv (e : Encoder) (vb m : Nat)
    (hmx : e.buf.max_bytes = some m) (hle : e.buf.bytes.length ≤ m) :
    (e.encode_value vb).1.buf.max_bytes = some m ∧
      (e.encode_value vb).1.buf.bytes.length ≤ m := by
  simp only [Encoder.encode_value]
  split_ifs <;>
    refine ⟨by first
        | exact hmx
        | (simp only [write_bit_max, write_bits_max]; exact hmx), ?_⟩ <;>
    repeat' (first
      | exact hle
      | exact hmx
      | (simp only [write_bit_max, write_bits_max]; exact hmx)
      | apply write_bit_len_le _ _ m
      | apply write_bits_len_le _ _ _ m)

set_option maxHeartbeats 800000 in
theorem encode_dod_inv (e : Encoder) (dod : Int) (m : Nat)
    (hmx : e.buf.max_bytes = some m) (hle : e.buf.bytes.length ≤ m) :
    (e.encode_delta_of_delta dod).1.buf.max_bytes = some m ∧
      (e.encode_delta_of_delta dod).1.buf.bytes.length ≤ m := by
  simp only [Encoder.encode_delta_of_delta]
  split_ifs <;>
    refine ⟨by first
        | exact hmx
        | (simp only [write_bit_max, write_bits_max]; exact hmx), ?_⟩ <;>
    repeat' (first
      | exact hle
      | exact hmx
      | (simp only [write_bit_max, write_bits_max]; exact hmx)
      | apply write_bit_len_le _ _ m
      | apply write_bits_len_le _ _ _ m)

theorem encode_first_inv (e : Encoder) (dp : DataPoint) (m : Nat)
    (hmx : e.buf.max_bytes = some m) (hle : e.buf.bytes.length ≤ m) :
    (e.encode_first dp).1.buf.max_bytes = some m ∧
      (e.encode_first dp).1.buf.bytes.length ≤ m := by
  simp only [Encoder.encode_first]
  split_ifs <;>
    refine ⟨by first
        | exact hmx
        | (simp only [write_bit_max, write_bits_max]; exact hmx), ?_⟩ <;>
    repeat' (first
      | exact hle
      | exact hmx
      | (simp only [write_bit_max, write_bits_max]; exact hmx)
      | apply write_bit_len_le _ _ m
      | apply write_bits_len_le _ _ _ m)

theorem finish_inv (e : Encoder) (m : Nat)
    (hmx : e.buf.max_bytes = some m) (hle : e.buf.bytes.length ≤ m) :
    (e.finish).1.buf.max_bytes = some m ∧ (e.finish).1.buf.bytes.length ≤ m := by
  simp only [Encoder.finish]
  split_ifs <;>
    refine ⟨by first
        | exact hmx
        | (simp only [write_bit_max, write_bits_max]; exact hmx), ?_⟩ <;>
    repeat' (first
      | exact hle
      | exact hmx
      | (simp only [write_bit_max, write_bits_max]; exact hmx)
      | apply write_bit_len_le _ _ m
      | apply write_bits_len_le _ _ _ m)

theorem encode_second_inv (e : Encoder) (dp : DataPoint) (m : Nat)
    (hmx : e.buf.max_bytes = some m) (hle : e.buf.bytes.length ≤ m) :
    (e.encode_second dp).1.buf.max_bytes = some m ∧
      (e.encode_second dp).1.buf.bytes.length ≤ m := by
  simp only [Encoder.encode_second]
  have h1 := encode_dod_inv e (wrap64 (toI64 dp.timestamp - toI64 e.prev_timestamp)) m hmx hle
  have h2 := encode_value_inv (e.encode_delta_of_delta
    (wrap64 (toI64 dp.timestamp - toI64 e.prev_timestamp))).1 dp.value_bits m h1.1 h1.2
  split_ifs <;> first | exact h2 | exact h1

theorem encode_subsequent_inv (e : Encoder) (dp : DataPoint) (m : Nat)
    (hmx : e.buf.max_bytes = some m) (hle : e.buf.bytes.length ≤ m) :
    (e.encode_subsequent dp).1.buf.max_bytes = some m ∧
      (e.encode_subsequent dp).1.buf.bytes.length ≤ m := by
  simp only [Encoder.encode_subsequent]
  have h1 := encode_dod_inv e (wrap64 (wrap64 (toI64 dp.timestamp - toI64 e.prev_timestamp)
    - e.prev_delta)) m hmx hle
  have h2 := encode_value_inv (e.encode_delta_of_delta
    (wrap64 (wrap64 (toI64 dp.timestamp - toI64 e.prev_timestamp) - e.prev_delta))).1
    dp.value_bits m h1.1 h1.2
  split_ifs <;> first | exact h2 | exact h1

theorem encode_inv (e : Encoder) (dp : DataPoint) (m : Nat)
    (hmx : e.buf.max_bytes = some m) (hle : e.buf.bytes.length ≤ m) :
    (e.encode dp).1.buf.max_bytes = some m ∧ (e.encode dp).1.buf.bytes.length ≤ m := by
  simp only [Encoder.encode]
  have h1 := encode_first_inv e dp m hmx hle
  have h2 := encode_second_inv e dp m hmx hle
  have h3 := encode_subsequent_inv e dp m hmx hle
  split_ifs <;> first | exact h1 | exact h2 | exact h3

/-! ### Claims C4 and C5 -/

/-- Claim C4, counterexample: as stated the claim is false in two ways.
Writing `v = 4` with `n = 1` into an empty buffer stores only the low bit
(`0`), so reading back gives `0 ≠ 4` (the claim promises `v` for *any* `u64`
`v`, without reducing mod `2^n`). And writing into a buffer with prior
content, `read_bits(n)` from position 0 returns the *old* leading bits, not
the newly written value. -/
theorem c4_counterexample :
    ((BitBuffer.new.write_bits 4 1).2 = true ∧
      (((BitReader.mk (BitBuffer.new.write_bits 4 1).1.bytes
          (BitBuffer.new.write_bits 4 1).1.len_bits 0).read_bits 1).map Prod.fst = some 0) ∧
      (0 : Nat) ≠ 4) ∧
    ((((BitBuffer.new.write_bit true).1.write_bits 0 1).2 = true) ∧
      ((((BitReader.mk ((BitBuffer.new.write_bit true).1.write_bits 0 1).1.bytes
          ((BitBuffer.new.write_bit true).1.write_bits 0 1).1.len_bits 0).read_bits 1).map
            Prod.fst) = some 1) ∧
      (1 : Nat) ≠ 0) := by
  decide

/-- Claim C4 (amended): for any well-formed `BitBuffer`, any `v` and any
`n ≤ 64`, if `write_bits(v, n)` succeeds then reading `n` bits with a fresh
`BitReader` over the resulting buffer, starting at the position where the
write began (`len_bits` of the original buffer — position 0 exactly when the
buffer was empty), returns the low `n` bits `v % 2^n` (which is `v` itself
whenever `v < 2^n`). -/
theorem c4_write_read_roundtrip (buf : BitBuffer) (v n : Nat) (hwf : buf.wf) (hn : n ≤ 64)
    (hok : (buf.write_bits v n).2 = true) :
    (BitReader.mk (buf.write_bits v n).1.bytes (buf.write_bits v n).1.len_bits
        buf.len_bits).read_bits n =
      some (v % 2 ^ n, ⟨(buf.write_bits v n).1.bytes, (buf.write_bits v n).1.len_bits,
        buf.len_bits + n⟩) := by
  obtain ⟨hwf2, -, hlen2, -, hbits2⟩ := write_bits_ok buf v n hwf hok
  apply read_bits_spec
  · intro j hj
    exact hbits2 j hj
  · show buf.len_bits + n ≤ (buf.write_bits v n).1.len_bits
    omega

/-- Witness for `c4_write_read_roundtrip` at a concrete input. -/
theorem c4_write_read_roundtrip_witness :
    BitBuffer.new.wf ∧ (3 : Nat) ≤ 64 ∧ (BitBuffer.new.write_bits 5 3).2 = true ∧
    (BitReader.mk (BitBuffer.new.write_bits 5 3).1.bytes
        (BitBuffer.new.write_bits 5 3).1.len_bits BitBuffer.new.len_bits).read_bits 3 =
      some (5 % 2 ^ 3, ⟨(BitBuffer.new.write_bits 5 3).1.bytes,
        (BitBuffer.new.write_bits 5 3).1.len_bits, BitBuffer.new.len_bits + 3⟩) :=
  ⟨by decide, by decide, by decide,
    c4_write_read_roundtrip BitBuffer.new 5 3 (by decide) (by decide) (by decide)⟩

/-- Claim C5: a `BitBuffer` with byte limit `m` (and within its limit) never
exceeds `m` bytes under any sequence of `write_bit`/`write_bits` calls; a
write that would start a new byte when the buffer already holds `m` bytes
returns `BufferFull`; a failing `write_bits` leaves the previous contents
followed by exactly the most-significant bits of the intended write that fit
(the buffer ends byte-full at `8m` bits); and a limited encoder's
`into_compressed` never exceeds `max_bytes`. -/
theorem c5_limit_invariants (m : Nat) (buf : BitBuffer) (hwf : buf.wf)
    (hmx : buf.max_bytes = some m) (hle : buf.bytes.length ≤ m) :
    (∀ ops : List WriteOp, (applyOps buf ops).bytes.length ≤ m) ∧
    ((buf.bit_count = 0 ∨ buf.bit_count = 8) → buf.bytes.length = m →
      ∀ b, (buf.write_bit b).2 = false) ∧
    (∀ v n, (buf.write_bits v n).2 = false →
      (buf.write_bits v n).1.len_bits = 8 * m ∧
      (buf.write_bits v n).1.bytes.length = m ∧
      (∀ p, p < buf.len_bits → streamBit (buf.write_bits v n).1.bytes p = streamBit buf.bytes p) ∧
      (∀ j, j < 8 * m - buf.len_bits →
        streamBit (buf.write_bits v n).1.bytes (buf.len_bits + j) = v.testBit (n - 1 - j))) ∧
    (∀ (e : Encoder) (dp : DataPoint), e.buf.max_bytes = some m → e.buf.bytes.length ≤ m →
      (e.encode dp).1.into_compressed.bytes.length ≤ m ∧
      (e.finish).1.into_compressed.bytes.length ≤ m) := by
  refine ⟨?_, ?_, ?_, ?_⟩
  · intro ops
    exact (applyOps_le ops buf m hmx hle).1
  · intro hk hblen b
    unfold BitBuffer.write_bit
    rw [if_pos hk, hmx]
    show (if m ≤ buf.bytes.length then (buf, false)
        else writeTail ⟨buf.bytes ++ [0], 0, some m⟩ b).2 = false
    rw [if_pos (by omega)]
  · intro v n hfail
    obtain ⟨-, -, hlen, hblen, hpres, hbits⟩ := write_bits_fail_state buf v n m hwf hmx hle hfail
    exact ⟨hlen, hblen, hpres, hbits⟩
  · intro e dp hemx hele
    exact ⟨(encode_inv e dp m hemx hele).2, (finish_inv e m hemx hele).2⟩

/-- Witness for `c5_limit_invariants` at concrete inputs. -/
theorem c5_limit_invariants_witness :
    (applyOps (BitBuffer.with_limit 1) [WriteOp.bits 255 8, WriteOp.bit true]).bytes.length ≤ 1 ∧
    (((BitBuffer.with_limit 1).write_bits 171 8).1.write_bit true).2 = false ∧
    ((BitBuffer.with_limit 1).write_bits 65535 16).1.len_bits = 8 * 1 ∧
    ((Encoder.with_limit 1).encode ⟨5, 7⟩).1.into_compressed.bytes.length ≤ 1 := by
  refine ⟨?_, ?_, ?_, ?_⟩
  · exact (c5_limit_invariants 1 (BitBuffer.with_limit 1) (by decide) (by decide)
      (by decide)).1 [WriteOp.bits 255 8, WriteOp.bit true]
  · exact (c5_limit_invariants 1 ((BitBuffer.with_limit 1).write_bits 171 8).1 (by decide)
      (by decide) (by decide)).2.1 (by decide) (by decide) true
  · exact ((c5_limit_invariants 1 (BitBuffer.with_limit 1) (by decide) (by decide)
      (by decide)).2.2.1 65535 16 (by decide)).1
  · exact ((c5_limit_invariants 1 (BitBuffer.with_limit 1) (by decide) (by decide)
      (by decide)).2.2.2 (Encoder.with_limit 1) ⟨5, 7⟩ (by decide) (by decide)).1

/-! ### Claims C1, C2, C6, C7, C9, C10 -/

instance instDecTimestampsMonotone : ∀ l : List DataPoint, Decidable (TimestampsMonotone l)
  | [] => isTrue trivial
  | [_] => isTrue trivial
  | _ :: q :: rest =>
    have := instDecTimestampsMonotone (q :: rest)
    inferInstanceAs (Decidable (_ ∧ _))

set_option maxRecDepth 100000 in
/-- Claim C1, failing evaluation: the monotone two-point series
`[(0, 1.0), (64, 1.0)]` (value bits `0x3FF0000000000000 = (1.0).to_bits()`)
encodes successfully, but decoding returns second timestamp
`2^64 - 64 = 18446744073709551552` instead of `64`: the first delta `64` is
written in the `10` bucket as the 7-bit payload `1000000`, which the decoder
sign-extends to `-64`. The claimed exact round-trip is false on the code. -/
theorem c1_roundtrip_fails_at_dod64 :
    TimestampsMonotone [⟨0, 0x3FF0000000000000⟩, ⟨64, 0x3FF0000000000000⟩] ∧
    (Encoder.new.encode ⟨0, 0x3FF0000000000000⟩).2 = true ∧
    ((Encoder.new.encode ⟨0, 0x3FF0000000000000⟩).1.encode ⟨64, 0x3FF0000000000000⟩).2 = true ∧
    (((Encoder.new.encode ⟨0, 0x3FF0000000000000⟩).1.encode
      ⟨64, 0x3FF0000000000000⟩).1.finish).2 = true ∧
    Decoder.decode ((((Encoder.new.encode ⟨0, 0x3FF0000000000000⟩).1.encode
        ⟨64, 0x3FF0000000000000⟩).1.finish).1.into_compressed) =
      .ok [⟨0, 0x3FF0000000000000⟩, ⟨18446744073709551552, 0x3FF0000000000000⟩] ∧
    (DecResult.ok [⟨0, 0x3FF0000000000000⟩, (⟨18446744073709551552, 0x3FF0000000000000⟩ : DataPoint)] ≠
      DecResult.ok [⟨0, 0x3FF0000000000000⟩, (⟨64, 0x3FF0000000000000⟩ : DataPoint)]) := by
  decide

set_option maxRecDepth 100000 in
/-- Claim C2, failing evaluation: the encoder puts `dod = 64` in the `10`
bucket (its range check `-63 ≤ dod ≤ 64` is inclusive at 64) and stores the
low 7 two's-complement bits `1000000`; the decoder reads them back and
sign-extends to `-64 ≠ 64`, so the claimed exact round-trip of the
delta-of-delta codec is false at `d = 64` (likewise 256 and 2048). -/
theorem c2_dod64_decodes_to_neg64 :
    (Encoder.new.encode_delta_of_delta 64).2 = true ∧
    Decoder.decode_delta_of_delta ⟨(Encoder.new.encode_delta_of_delta 64).1.buf.bytes,
        (Encoder.new.encode_delta_of_delta 64).1.buf.len_bits, 0⟩ =
      .ok (.value (-64), ⟨(Encoder.new.encode_delta_of_delta 64).1.buf.bytes, 9, 9⟩) ∧
    ((-64 : Int) ≠ 64) := by
  decide

set_option maxRecDepth 100000 in
/-- Claim C6, counterexample: encoding `[(1000, 1.0), (1060, 1.0), (1120, 1.0)]`
and finishing yields 208 bits, not the claimed 200: the second point's
delta-of-delta codeword carries the first delta 60 and costs 9 bits, not 1. -/
theorem c6_total_bits_counterexample :
    ((((Encoder.new.encode ⟨1000, 0x3FF0000000000000⟩).1.encode
        ⟨1060, 0x3FF0000000000000⟩).1.encode ⟨1120, 0x3FF0000000000000⟩).1.finish).1.buf.len_bits
      = 208 ∧ (208 : Nat) ≠ 200 := by
  decide

set_option maxRecDepth 100000 in
/-- Claim C6 (amended): for the input `[(1000, 1.0), (1060, 1.0), (1120, 1.0)]`
the stream costs 128 bits for the first point, 10 bits for the second point
(9-bit dod codeword carrying delta 60 plus 1 xor bit), 2 bits for the third
(dod = 0 and xor = 0), and 68 bits for the sentinel:
`128 + 10 + 2 + 68 = 208` bits in total. -/
theorem c6_bit_costs :
    (Encoder.new.encode ⟨1000, 0x3FF0000000000000⟩).1.buf.len_bits = 128 ∧
    ((Encoder.new.encode ⟨1000, 0x3FF0000000000000⟩).1.encode
      ⟨1060, 0x3FF0000000000000⟩).1.buf.len_bits = 128 + 10 ∧
    (((Encoder.new.encode ⟨1000, 0x3FF0000000000000⟩).1.encode
      ⟨1060, 0x3FF0000000000000⟩).1.encode ⟨1120, 0x3FF0000000000000⟩).1.buf.len_bits
      = 128 + 10 + 2 ∧
    ((((Encoder.new.encode ⟨1000, 0x3FF0000000000000⟩).1.encode
      ⟨1060, 0x3FF0000000000000⟩).1.encode ⟨1120, 0x3FF0000000000000⟩).1.finish).1.buf.len_bits
      = 128 + 10 + 2 + 68 := by
  decide

set_option maxRecDepth 100000 in
/-- Claim C9, counterexample: decoding the block produced by an empty encoder
plus `finish` returns `Err(UnexpectedEnd)` — the 68-bit sentinel is read as a
first timestamp (64 bits) followed by a short value read — which is neither
the error `Empty` nor a successful empty sequence, refuting the claim's exact
disjunction. -/
theorem c9_counterexample :
    Decoder.decode (Encoder.new.finish).1.into_compressed = .err .unexpectedEnd ∧
    ((DecResult.err DecodeError.unexpectedEnd : DecResult (List DataPoint)) ≠ .err .empty) ∧
    ((DecResult.err DecodeError.unexpectedEnd : DecResult (List DataPoint)) ≠ .ok []) := by
  decide

set_option maxRecDepth 100000 in
/-- Claim C9 (amended): decoding the block of an empty `Encoder::new` plus
`finish` returns a `DecodeError` (specifically `UnexpectedEnd`) — never a
successful non-empty sequence of points. -/
theorem c9_empty_finish_decode_errs :
    Decoder.decode (Encoder.new.finish).1.into_compressed =
      .err DecodeError.unexpectedEnd := by
  decide

set_option maxRecDepth 100000 in
/-- Claim C10, failing evaluation: `decode_raw` is not total. On the input
below (a zero header, a `dod = 0` codeword, then a new-window value codeword
with `leading = 63` and `meaningful_bits = 64`), the computation
`trailing = 64 - leading - meaningful_bits` underflows `u8` arithmetic
(`63 + 64 > 64`), which panics in a debug build (and produces an oversized
shift in release); the model returns the `panic` outcome. -/
theorem c10_decode_panics :
    (143 : Nat) ≤ 8 * (List.replicate 16 0 ++ [0x7F, 0xFE] : List Nat).length ∧
    Decoder.decode_raw (List.replicate 16 0 ++ [0x7F, 0xFE]) 143 = .panic := by
  decide

theorem encode_value_count (e : Encoder) (vb : Nat) :
    (e.encode_value vb).1.count = e.count := by
  simp only [Encoder.encode_value]
  split_ifs <;> rfl

theorem encode_dod_count (e : Encoder) (dod : Int) :
    (e.encode_delta_of_delta dod).1.count = e.count := by
  simp only [Encoder.encode_delta_of_delta]
  split_ifs <;> rfl

theorem encode_first_count (e : Encoder) (dp : DataPoint) :
    (e.encode_first dp).1.count = e.count := by
  simp only [Encoder.encode_first]
  split_ifs <;> rfl

theorem encode_second_count (e : Encoder) (dp : DataPoint) :
    (e.encode_second dp).1.count = e.count := by
  simp only [Encoder.encode_second]
  split_ifs <;> simp only [encode_value_count, encode_dod_count]

theorem encode_subsequent_count (e : Encoder) (dp : DataPoint) :
    (e.encode_subsequent dp).1.count = e.count := by
  simp only [Encoder.encode_subsequent]
  split_ifs <;> simp only [encode_value_count, encode_dod_count]

theorem encode_first_fail_shape (e : Encoder) (dp : DataPoint)
    (hc : e.count = 0)
    (hfail : (e.buf.write_bits dp.timestamp 64).2 = false) :
    e.encode dp = ({ e with buf := (e.buf.write_bits dp.timestamp 64).1 }, false) := by
  simp only [Encoder.encode, Encoder.encode_first, hc, hfail]
  simp

/-- Claim C7: whenever `encode` returns `BufferFull`, `count` is unchanged
(it is only incremented on a fully successful `encode`); and an encoder with
`max_bytes = 1` fails on any first point (the 64-bit timestamp needs 8 bytes)
with `count` still 0. -/
theorem c7_count_unchanged_on_error :
    (∀ (e : Encoder) (dp : DataPoint), (e.encode dp).2 = false →
      (e.encode dp).1.count = e.count) ∧
    (∀ dp : DataPoint, ((Encoder.with_limit 1).encode dp).2 = false ∧
      ((Encoder.with_limit 1).encode dp).1.count = 0) := by
  constructor
  · intro e dp h
    simp only [Encoder.encode] at h ⊢
    split_ifs at h ⊢ <;>
      simp_all [encode_first_count, encode_second_count, encode_subsequent_count]
  · intro dp
    have hfail : ((Encoder.with_limit 1).buf.write_bits dp.timestamp 64).2 = false := by
      have hiff := write_bits_succ_iff (Encoder.with_limit 1).buf dp.timestamp 64 1
        (by decide) (by decide) (by decide)
      by_cases h2 : ((Encoder.with_limit 1).buf.write_bits dp.timestamp 64).2 = true
      · exfalso
        have hlen : (Encoder.with_limit 1).buf.len_bits = 0 := by decide
        have := hiff.mp h2
        omega
      · simpa using h2
    rw [encode_first_fail_shape (Encoder.with_limit 1) dp rfl hfail]
    exact ⟨rfl, rfl⟩

/-! ### Claim C8 -/

theorem exists_false_bit (x : Nat) (hlt : x < 2 ^ 64) (hne : x ≠ 2 ^ 64 - 1) :
    ∃ k, k < 64 ∧ x.testBit k = false := by
  by_contra hcon
  push_neg at hcon
  apply hne
  apply Nat.eq_of_testBit_eq
  intro i
  by_cases hi : i < 64
  · have h1 := hcon i hi
    rw [Nat.testBit_two_pow_sub_one]
    simp only [Bool.not_eq_false] at h1
    simp [hi, h1]
  · have hpow : (2 : Nat) ^ 64 ≤ 2 ^ i := Nat.pow_le_pow_right (by norm_num) (by omega)
    rw [Nat.testBit_lt_two_pow (by omega), Nat.testBit_two_pow_sub_one]
    simp [hi]

theorem toU64_lt (i : Int) : toU64 i < 2 ^ 64 := by
  unfold toU64
  have h1 : 0 ≤ i % 2 ^ 64 := Int.emod_nonneg i (by norm_num)
  have h2 : i % 2 ^ 64 < 2 ^ 64 := Int.emod_lt_of_pos i (by norm_num)
  omega

theorem toU64_ne_ones (d : Int) (hlo : -(2 ^ 63) ≤ d) (hhi : d < 2 ^ 63) (hne : d ≠ -1) :
    toU64 d ≠ 2 ^ 64 - 1 := by
  unfold toU64
  intro h
  have h1 : 0 ≤ d % 2 ^ 64 := Int.emod_nonneg d (by norm_num)
  omega

/-- Claim C8: the encoder's delta-of-delta writer never emits the 68-bit
end-of-stream pattern (`1111` prefix with all-ones 64-bit payload): the
`1111` bucket is only taken for `dod` outside `[-2047, 2048]`, and the unique
`i64` whose 64 low bits are all ones is `dod = -1`, which lands in the `10`
bucket; the short buckets emit fewer than 68 bits. The only source of the
sentinel codeword is `finish`, which appends exactly 68 one bits. -/
theorem c8_no_sentinel_dod (e : Encoder) (d : Int) (e2 : Encoder)
    (hwf : e.buf.wf) (hmx : e.buf.max_bytes = none)
    (hd : -(2 ^ 63) ≤ d ∧ d < 2 ^ 63)
    (hwf2 : e2.buf.wf) (hmx2 : e2.buf.max_bytes = none) (hfin : e2.finished = false) :
    ((e.encode_delta_of_delta d).2 = true ∧
      ¬ ((e.encode_delta_of_delta d).1.buf.len_bits = e.buf.len_bits + 68 ∧
        ∀ j, j < 68 →
          streamBit (e.encode_delta_of_delta d).1.buf.bytes (e.buf.len_bits + j) = true)) ∧
    ((e2.finish).2 = true ∧
      (e2.finish).1.buf.len_bits = e2.buf.len_bits + 68 ∧
      ∀ j, j < 68 → streamBit (e2.finish).1.buf.bytes (e2.buf.len_bits + j) = true) := by
  constructor
  · simp only [Encoder.encode_delta_of_delta]
    by_cases h0 : d = 0
    · rw [if_pos h0]
      have hok := write_bit_none_ok e.buf false hmx
      obtain ⟨-, -, hlen, -, -, -, -⟩ := write_bit_ok e.buf false hwf hok
      refine ⟨hok, ?_⟩
      rintro ⟨hbad, -⟩
      replace hbad : (e.buf.write_bit false).1.len_bits = e.buf.len_bits + 68 := hbad
      omega
    rw [if_neg h0]
    by_cases h1 : -63 ≤ d ∧ d ≤ 64
    · rw [if_pos h1]
      have hok1 := write_bits_none_ok e.buf 2 2 hmx
      rw [if_pos hok1]
      obtain ⟨hwfA, hmaxA, hlenA, -, -⟩ := write_bits_ok e.buf 2 2 hwf hok1
      have hok2 := write_bits_none_ok _ (toU64 d &&& 0x7F) 7 (by rw [hmaxA]; exact hmx)
      obtain ⟨-, -, hlenB, -, -⟩ := write_bits_ok _ (toU64 d &&& 0x7F) 7 hwfA hok2
      refine ⟨hok2, ?_⟩
      rintro ⟨hbad, -⟩
      replace hbad : ((e.buf.write_bits 2 2).1.write_bits (toU64 d &&& 0x7F) 7).1.len_bits
          = e.buf.len_bits + 68 := hbad
      omega
    rw [if_neg h1]
    by_cases h2 : -255 ≤ d ∧ d ≤ 256
    · rw [if_pos h2]
      have hok1 := write_bits_none_ok e.buf 6 3 hmx
      rw [if_pos hok1]
      obtain ⟨hwfA, hmaxA, hlenA, -, -⟩ := write_bits_ok e.buf 6 3 hwf hok1
      have hok2 := write_bits_none_ok _ (toU64 d &&& 0x1FF) 9 (by rw [hmaxA]; exact hmx)
      obtain ⟨-, -, hlenB, -, -⟩ := write_bits_ok _ (toU64 d &&& 0x1FF) 9 hwfA hok2
      refine ⟨hok2, ?_⟩
      rintro ⟨hbad, -⟩
      replace hbad : ((e.buf.write_bits 6 3).1.write_bits (toU64 d &&& 0x1FF) 9).1.len_bits
          = e.buf.len_bits + 68 := hbad
      omega
    rw [if_neg h2]
    by_cases h3 : -2047 ≤ d ∧ d ≤ 2048
    · rw [if_pos h3]
      have hok1 := write_bits_none_ok e.buf 14 4 hmx
      rw [if_pos hok1]
      obtain ⟨hwfA, hmaxA, hlenA, -, -⟩ := write_bits_ok e.buf 14 4 hwf hok1
      have hok2 := write_bits_none_ok _ (toU64 d &&& 0xFFF) 12 (by rw [hmaxA]; exact hmx)
      obtain ⟨-, -, hlenB, -, -⟩ := write_bits_ok _ (toU64 d &&& 0xFFF) 12 hwfA hok2
      refine ⟨hok2, ?_⟩
      rintro ⟨hbad, -⟩
      replace hbad : ((e.buf.write_bits 14 4).1.write_bits (toU64 d &&& 0xFFF) 12).1.len_bits
          = e.buf.len_bits + 68 := hbad
      omega
    · rw [if_neg h3]
      have hok1 := write_bits_none_ok e.buf 15 4 hmx
      rw [if_pos hok1]
      obtain ⟨hwfA, hmaxA, hlenA, -, -⟩ := write_bits_ok e.buf 15 4 hwf hok1
      have hok2 := write_bits_none_ok _ (toU64 d) 64 (by rw [hmaxA]; exact hmx)
      obtain ⟨-, -, hlenB, -, hbitsB⟩ := write_bits_ok _ (toU64 d) 64 hwfA hok2
      refine ⟨hok2, ?_⟩
      rintro ⟨-, hall⟩
      have hdne : d ≠ -1 := by
        intro hd1
        rw [hd1] at h3
        exact h3 (by norm_num)
      obtain ⟨k, hk64, hkbit⟩ :=
        exists_false_bit (toU64 d) (toU64_lt d) (toU64_ne_ones d hd.1 hd.2 hdne)
      have hinst := hall (4 + (63 - k)) (by omega)
      replace hinst : streamBit ((e.buf.write_bits 15 4).1.write_bits (toU64 d) 64).1.bytes
          (e.buf.len_bits + (4 + (63 - k))) = true := hinst
      have harr : e.buf.len_bits + (4 + (63 - k)) =
          (e.buf.write_bits 15 4).1.len_bits + (63 - k) := by omega
      rw [harr] at hinst
      rw [hbitsB (63 - k) (by omega)] at hinst
      have hidx : 64 - 1 - (63 - k) = k := by omega
      rw [hidx, hkbit] at hinst
      exact absurd hinst (by simp)
  · simp only [Encoder.finish]
    rw [if_neg (by simp [hfin])]
    have hok1 := write_bits_none_ok e2.buf 15 4 hmx2
    rw [if_pos hok1]
    obtain ⟨hwfA, hmaxA, hlenA, -, hbitsA⟩ := write_bits_ok e2.buf 15 4 hwf2 hok1
    have hok2 := write_bits_none_ok _ (2 ^ 64 - 1) 64 (by rw [hmaxA]; exact hmx2)
    rw [if_pos hok2]
    obtain ⟨-, -, hlenB, hpresB, hbitsB⟩ := write_bits_ok _ (2 ^ 64 - 1) 64 hwfA hok2
    refine ⟨rfl, ?_, ?_⟩
    · show ((e2.buf.write_bits 15 4).1.write_bits (2 ^ 64 - 1) 64).1.len_bits
        = e2.buf.len_bits + 68
      omega
    · intro j hj
      show streamBit ((e2.buf.write_bits 15 4).1.write_bits (2 ^ 64 - 1) 64).1.bytes
        (e2.buf.len_bits + j) = true
      by_cases hj4 : j < 4
      · rw [hpresB (e2.buf.len_bits + j) (by omega)]
        rw [hbitsA j hj4]
        have h15 : (15 : Nat) = 2 ^ 4 - 1 := by norm_num
        rw [h15, Nat.testBit_two_pow_sub_one]
        simp
        omega
      · have harr : e2.buf.len_bits + j = (e2.buf.write_bits 15 4).1.len_bits + (j - 4) := by
          omega
        rw [harr, hbitsB (j - 4) (by omega), Nat.testBit_two_pow_sub_one]
        simp
        omega

/-- Witness for `c8_no_sentinel_dod` at concrete inputs. -/
theorem c8_no_sentinel_dod_witness :
    (Encoder.new.encode_delta_of_delta 5000).2 = true ∧
    ¬ ((Encoder.new.encode_delta_of_delta 5000).1.buf.len_bits
        = Encoder.new.buf.len_bits + 68 ∧
      ∀ j, j < 68 → streamBit (Encoder.new.encode_delta_of_delta 5000).1.buf.bytes
        (Encoder.new.buf.len_bits + j) = true) ∧
    (Encoder.new.finish).2 = true :=
  ⟨(c8_no_sentinel_dod Encoder.new 5000 Encoder.new (by decide) rfl (by decide)
      (by decide) rfl rfl).1.1,
   (c8_no_sentinel_dod Encoder.new 5000 Encoder.new (by decide) rfl (by decide)
      (by decide) rfl rfl).1.2,
   (c8_no_sentinel_dod Encoder.new 5000 Encoder.new (by decide) rfl (by decide)
      (by decide) rfl rfl).2.1⟩

/-- Witness for `c7_count_unchanged_on_error` at a concrete input. -/
theorem c7_count_unchanged_on_error_witness :
    ((Encoder.with_limit 1).encode ⟨5, 7⟩).1.count = (Encoder.with_limit 1).count ∧
    ((Encoder.with_limit 1).encode ⟨5, 7⟩).2 = false ∧
    ((Encoder.with_limit 1).encode ⟨5, 7⟩).1.count = 0 :=
  ⟨c7_count_unchanged_on_error.1 (Encoder.with_limit 1) ⟨5, 7⟩ (by decide),
   (c7_count_unchanged_on_error.2 ⟨5, 7⟩).1,
   (c7_count_unchanged_on_error.2 ⟨5, 7⟩).2⟩

/-! ### Claim C3: the lazy iterator agrees with the eager decoder -/

/-- Map over the success value of a `DecResult`. -/
def mapDR (f : List DataPoint → List DataPoint) :
    DecResult (List DataPoint) → DecResult (List DataPoint)
  | .ok l => .ok (f l)
  | .err e => .err e
  | .panic => .panic

theorem decodeLoop_step (fuel : Nat) (r : BitReader) (pts : List DataPoint)
    (ts : Nat) (dl : Int) (vb pl pt : Nat) :
    decodeLoop (fuel + 1) r pts ts dl vb pl pt =
      match Decoder.decode_delta_of_delta r with
      | .err e => .err e
      | .panic => .panic
      | .ok (.endOfStream, _) => .ok pts
      | .ok (.value dod, r1) =>
        let prev_delta1 := if pts.length = 1 then dod else wrap64 (dl + dod)
        let prev_timestamp1 := toU64 (toI64 ts + prev_delta1)
        match Decoder.decode_value r1 vb pl pt with
        | .err e => .err e
        | .panic => .panic
        | .ok ((val_bits, leading, trailing), r2) =>
          decodeLoop fuel r2 (pts ++ [⟨prev_timestamp1, val_bits⟩])
            prev_timestamp1 prev_delta1 val_bits leading trailing := rfl

theorem collectGo_step (fuel : Nat) (it : DecoderIter) :
    collectGo (fuel + 1) it =
      match DecoderIter.next it with
      | (none, _) => .ok []
      | (some (.err e), _) => .err e
      | (some .panic, _) => .panic
      | (some (.ok dp), it1) =>
        match collectGo fuel it1 with
        | .ok ps => .ok (dp :: ps)
        | .err e => .err e
        | .panic => .panic := rfl

theorem readBitsGo_isSome (n : Nat) :
    ∀ (r : BitReader) (acc : Nat), r.pos + n ≤ r.total_bits →
      (readBitsGo r acc n).isSome := by
  induction n with
  | zero =>
    intro r acc _
    rfl
  | succ n ih =>
    intro r acc hle
    have hrb : r.read_bit = some (streamBit r.bytes r.pos, ⟨r.bytes, r.total_bits, r.pos + 1⟩) := by
      unfold BitReader.read_bit
      rw [if_neg (by omega)]
    rw [readBitsGo_step, hrb]
    exact ih ⟨r.bytes, r.total_bits, r.pos + 1⟩ _ (by show r.pos + 1 + n ≤ r.total_bits; omega)

theorem next_second (r : BitReader) (ts : Nat) (dl : Int) (vb pl pt : Nat) :
    DecoderIter.next ⟨r, .secondPoint, ts, dl, vb, pl, pt, false⟩ =
      match Decoder.decode_delta_of_delta r with
      | .err e => (some (.err e), ⟨r, .secondPoint, ts, dl, vb, pl, pt, true⟩)
      | .panic => (some .panic, ⟨r, .secondPoint, ts, dl, vb, pl, pt, true⟩)
      | .ok (.endOfStream, r1) => (none, ⟨r1, .secondPoint, ts, dl, vb, pl, pt, true⟩)
      | .ok (.value dod, r1) =>
        match Decoder.decode_value r1 vb pl pt with
        | .err e => (some (.err e), ⟨r, .secondPoint, ts, dl, vb, pl, pt, true⟩)
        | .panic => (some .panic, ⟨r, .secondPoint, ts, dl, vb, pl, pt, true⟩)
        | .ok ((vb2, l2, t2), r2) =>
          (some (.ok ⟨toU64 (toI64 ts + dod), vb2⟩),
            ⟨r2, .subsequent, toU64 (toI64 ts + dod), dod, vb2, l2, t2, false⟩) := rfl

theorem next_subseq (r : BitReader) (ts : Nat) (dl : Int) (vb pl pt : Nat) :
    DecoderIter.next ⟨r, .subsequent, ts, dl, vb, pl, pt, false⟩ =
      match Decoder.decode_delta_of_delta r with
      | .err e => (some (.err e), ⟨r, .subsequent, ts, dl, vb, pl, pt, true⟩)
      | .panic => (some .panic, ⟨r, .subsequent, ts, dl, vb, pl, pt, true⟩)
      | .ok (.endOfStream, r1) => (none, ⟨r1, .subsequent, ts, dl, vb, pl, pt, true⟩)
      | .ok (.value dod, r1) =>
        match Decoder.decode_value r1 vb pl pt with
        | .err e => (some (.err e), ⟨r, .subsequent, ts, dl, vb, pl, pt, true⟩)
        | .panic => (some .panic, ⟨r, .subsequent, ts, dl, vb, pl, pt, true⟩)
        | .ok ((vb2, l2, t2), r2) =>
          (some (.ok ⟨toU64 (toI64 ts + wrap64 (dl + dod)), vb2⟩),
            ⟨r2, .subsequent, toU64 (toI64 ts + wrap64 (dl + dod)), wrap64 (dl + dod),
              vb2, l2, t2, false⟩) := rfl

theorem next_initial (r : BitReader) :
    DecoderIter.next ⟨r, .initial, 0, 0, 0, 0, 0, false⟩ =
      match r.read_bits 64 with
      | none => (none, ⟨r, .initial, 0, 0, 0, 0, 0, true⟩)
      | some (ts, r1) =>
        match r1.read_bits 64 with
        | none => (some (.err .unexpectedEnd), ⟨r1, .initial, 0, 0, 0, 0, 0, true⟩)
        | some (val_bits, r2) =>
          (some (.ok ⟨ts, val_bits⟩), ⟨r2, .secondPoint, ts, 0, val_bits, 0, 0, false⟩) := rfl

theorem loop_bisim (fuel : Nat) :
    ∀ (r : BitReader) (pts : List DataPoint) (ts : Nat) (dl : Int) (vb pl pt : Nat),
      1 ≤ pts.length →
      decodeLoop fuel r pts ts dl vb pl pt =
        mapDR (fun l => pts ++ l)
          (collectGo fuel ⟨r, if pts.length = 1 then .secondPoint else .subsequent,
            ts, dl, vb, pl, pt, false⟩) := by
  induction fuel with
  | zero =>
    intros
    split <;> rfl
  | succ fuel ih =>
    intro r pts ts dl vb pl pt hlen
    by_cases hone : pts.length = 1
    · rw [if_pos hone]
      rw [decodeLoop_step, collectGo_step, next_second r ts dl vb pl pt]
      simp only [hone, reduceIte]
      cases hdod : Decoder.decode_delta_of_delta r with
      | err e1 => rfl
      | panic => rfl
      | ok p =>
        obtain ⟨dres, r1⟩ := p
        cases dres with
        | endOfStream => simp [mapDR]
        | value dod =>
          cases hval : Decoder.decode_value r1 vb pl pt with
          | err e2 => simp only [hval, mapDR]
          | panic => simp only [hval, mapDR]
          | ok q =>
            obtain ⟨⟨vb2, l2, t2⟩, r2⟩ := q
            have hlen2 : ¬ (pts ++ [(⟨toU64 (toI64 ts + dod), vb2⟩ : DataPoint)]).length = 1 := by
              simp only [List.length_append, List.length_cons, List.length_nil]
              omega
            have hih := ih r2 (pts ++ [⟨toU64 (toI64 ts + dod), vb2⟩]) (toU64 (toI64 ts + dod))
              dod vb2 l2 t2 (by simp)
            rw [if_neg hlen2] at hih
            simp only [hval]
            rw [hih]
            cases collectGo fuel ⟨r2, .subsequent, toU64 (toI64 ts + dod), dod, vb2, l2, t2,
                false⟩ with
            | ok ps => simp [mapDR]
            | err e3 => simp [mapDR]
            | panic => simp [mapDR]
    · rw [if_neg hone]
      rw [decodeLoop_step, collectGo_step, next_subseq r ts dl vb pl pt]
      simp only [eq_self_iff_true, hone, if_false, reduceIte]
      cases hdod : Decoder.decode_delta_of_delta r with
      | err e1 => rfl
      | panic => rfl
      | ok p =>
        obtain ⟨dres, r1⟩ := p
        cases dres with
        | endOfStream => simp [mapDR]
        | value dod =>
          cases hval : Decoder.decode_value r1 vb pl pt with
          | err e2 => simp only [hval, mapDR]
          | panic => simp only [hval, mapDR]
          | ok q =>
            obtain ⟨⟨vb2, l2, t2⟩, r2⟩ := q
            have hlen2 : ¬ (pts ++
                [(⟨toU64 (toI64 ts + wrap64 (dl + dod)), vb2⟩ : DataPoint)]).length = 1 := by
              simp only [List.length_append, List.length_cons, List.length_nil]
              omega
            have hih := ih r2 (pts ++ [⟨toU64 (toI64 ts + wrap64 (dl + dod)), vb2⟩])
              (toU64 (toI64 ts + wrap64 (dl + dod))) (wrap64 (dl + dod)) vb2 l2 t2 (by simp)
            rw [if_neg hlen2] at hih
            simp only [hval]
            rw [hih]
            cases collectGo fuel ⟨r2, .subsequent, toU64 (toI64 ts + wrap64 (dl + dod)),
                wrap64 (dl + dod), vb2, l2, t2, false⟩ with
            | ok ps => simp [mapDR]
            | err e3 => simp [mapDR]
            | panic => simp [mapDR]

/-- Claim C3 (amended): for every block with at least 64 bits (enough for the
first timestamp read to succeed), collecting the lazy iterator equals the
eager `decode` — same points, same error, same panic behavior. On blocks with
fewer than 64 bits they disagree: `decode` returns `Err(Empty)` while the
iterator yields nothing, so collecting gives `Ok([])` — see the
counterexample. -/
theorem c3_iter_decode_agree (block : CompressedBlock) (h64 : 64 ≤ block.total_bits) :
    Decoder.collectResult block = Decoder.decode block := by
  unfold Decoder.collectResult Decoder.decode Decoder.iter Decoder.decode_from_reader
  rw [show block.total_bits + 2 = (block.total_bits + 1) + 1 from rfl, collectGo_step,
    next_initial]
  cases hts : (⟨block.bytes, block.total_bits, 0⟩ : BitReader).read_bits 64 with
  | none =>
    exfalso
    have hsome := readBitsGo_isSome 64 (⟨block.bytes, block.total_bits, 0⟩ : BitReader) 0
      (by show (0 : Nat) + 64 ≤ block.total_bits
          omega)
    unfold BitReader.read_bits at hts
    rw [if_neg (by norm_num)] at hts
    have hrem : ¬ (⟨block.bytes, block.total_bits, 0⟩ : BitReader).remaining < 64 := by
      show ¬ block.total_bits - 0 < 64
      omega
    rw [if_neg hrem] at hts
    rw [hts] at hsome
    exact absurd hsome (by simp)
  | some p =>
    obtain ⟨ts, r1⟩ := p
    show (match (match r1.read_bits 64 with
        | none => (some (DecResult.err DecodeError.unexpectedEnd),
            (⟨r1, .initial, 0, 0, 0, 0, 0, true⟩ : DecoderIter))
        | some (val_bits, r2) =>
          (some (DecResult.ok ⟨ts, val_bits⟩),
            (⟨r2, .secondPoint, ts, 0, val_bits, 0, 0, false⟩ : DecoderIter))) with
      | (none, snd) => DecResult.ok []
      | (some (DecResult.err e), snd) => DecResult.err e
      | (some DecResult.panic, snd) => DecResult.panic
      | (some (DecResult.ok dp), it1) =>
        match collectGo (block.total_bits + 1) it1 with
        | DecResult.ok ps => DecResult.ok (dp :: ps)
        | DecResult.err e => DecResult.err e
        | DecResult.panic => DecResult.panic) =
      match r1.read_bits 64 with
      | none => DecResult.err DecodeError.unexpectedEnd
      | some (val_bits, r2) =>
        decodeLoop (block.total_bits + 1) r2 [(⟨ts, val_bits⟩ : DataPoint)] ts 0 val_bits 0 0
    cases hval : r1.read_bits 64 with
    | none => rfl
    | some q =>
      obtain ⟨vb, r2⟩ := q
      show (match collectGo (block.total_bits + 1)
            (⟨r2, .secondPoint, ts, 0, vb, 0, 0, false⟩ : DecoderIter) with
          | DecResult.ok ps => DecResult.ok ((⟨ts, vb⟩ : DataPoint) :: ps)
          | DecResult.err e => DecResult.err e
          | DecResult.panic => DecResult.panic) =
        decodeLoop (block.total_bits + 1) r2 [⟨ts, vb⟩] ts 0 vb 0 0
      have hbis := loop_bisim (block.total_bits + 1) r2 [⟨ts, vb⟩] ts 0 vb 0 0 (by simp)
      rw [if_pos (by simp)] at hbis
      rw [hbis]
      cases collectGo (block.total_bits + 1)
          (⟨r2, .secondPoint, ts, 0, vb, 0, 0, false⟩ : DecoderIter) with
      | ok ps => simp [mapDR]
      | err e1 => simp [mapDR]
      | panic => simp [mapDR]

/-- Claim C3, counterexample to the unrestricted claim: on the empty block,
`decode` returns `Err(Empty)` while collecting the iterator returns `Ok([])`
(the iterator's first `next` hits the short timestamp read and yields nothing
at all rather than an error). -/
theorem c3_empty_block_counterexample :
    Decoder.collectResult ⟨[], 0, 0⟩ = .ok [] ∧
    Decoder.decode ⟨[], 0, 0⟩ = .err .empty ∧
    (DecResult.ok ([] : List DataPoint)) ≠ .err .empty := by
  decide

/-- Witness for `c3_iter_decode_agree` at a concrete block. -/
theorem c3_iter_decode_agree_witness :
    (64 : Nat) ≤ (CompressedBlock.mk (List.replicate 8 0) 64 0).total_bits ∧
    Decoder.collectResult ⟨List.replicate 8 0, 64, 0⟩ =
      Decoder.decode ⟨List.replicate 8 0, 64, 0⟩ :=
  ⟨by decide, c3_iter_decode_agree ⟨List.replicate 8 0, 64, 0⟩ (by decide)⟩
